import Mathlib

/-! # Verification of the vekt archive/restore core

Shallow embedding of the core of the `vekt` repository (crate `vekt_core`):
the safetensors ingestor (src/vekt_core/src/lib.rs), the manifest model and
the restorer (src/vekt_core/src/storage.rs), the blob store
(src/vekt_core/src/blobs.rs), the garbage collector (src/vekt_core/src/gc.rs)
and the lock file (src/vekt_core/src/utils.rs).

Modelling choices:
* bytes are natural numbers; byte buffers are `List Nat`;
* the blake3 digest is a parameter `hashFn : List Nat → α`; where a claim
  needs collision freedom it carries `Function.Injective hashFn` as an
  explicit hypothesis;
* `BTreeMap<String, _>` is a name-sorted association list built by
  `btreeInsert`, ordered by the byte-wise comparison `strLt` (Rust compares
  `String`s bytewise; on UTF-8 this agrees with code-point order);
* `IndexMap` is an association list in insertion order;
* the filesystem effects of the blob store are threaded explicitly: a store
  is an association list from digest to blob bytes;
* `serde_json::Value` is the inductive `Json`; numbers are modelled as
  integers (the manifests under study contain only integers);
* the restorer's output file is `8-byte little-endian header length ++
  header JSON ++ data section`; the embedding keeps the header as the list
  of entries (in `IndexMap` insertion order) and the data section as bytes,
  which is the part the claims quantify over, plus the trace of blob-copy
  operations performed by restore's second pass.
-/

namespace Vekt

/-! ## Generic helpers over lists and strings -/

/-- Byte-wise (here: code-point-wise) strict comparison of character lists,
the order Rust's `BTreeMap<String, _>` uses on UTF-8 strings. -/
def strLtList : List Char → List Char → Bool
  | [], [] => false
  | [], _ :: _ => true
  | _ :: _, [] => false
  | a :: as, b :: bs =>
    if a.toNat < b.toNat then true
    else if b.toNat < a.toNat then false
    else strLtList as bs

/-- Rust `String` ordering, as used by `BTreeMap<String, _>`. -/
def strLt (a b : String) : Bool := strLtList a.toList b.toList

/-- Rust `str::ends_with`. -/
def strEndsWith (s suffix : String) : Bool := List.isSuffixOf suffix.toList s.toList

/-- `needle` occurs contiguously in `hay`; Rust `str::contains`. -/
def listIsInfixOf [BEq α] : List α → List α → Bool
  | needle, [] => needle.isEmpty
  | needle, x :: xs => needle.isPrefixOf (x :: xs) || listIsInfixOf needle xs

/-- Rust `str::trim` (ASCII whitespace suffices for the model). -/
def trimCharList (l : List Char) : List Char :=
  ((l.dropWhile (fun c => c.val = 32 ∨ c.val = 9 ∨ c.val = 10 ∨ c.val = 13)).reverse.dropWhile
    (fun c => c.val = 32 ∨ c.val = 9 ∨ c.val = 10 ∨ c.val = 13)).reverse

/-- Rust `str::split(c)`. -/
def splitChar (c : Char) : List Char → List (List Char)
  | [] => [[]]
  | x :: xs =>
    match splitChar c xs with
    | [] => [[x]]
    | g :: gs => if x = c then [] :: g :: gs else (x :: g) :: gs

/-- First-match association-list lookup (`HashMap::get`, `IndexMap::get`,
first-wins field lookup). -/
def lookupAssoc [DecidableEq κ] : List (κ × β) → κ → Option β
  | [], _ => none
  | (k, v) :: rest, key => if key = k then some v else lookupAssoc rest key

/-- The byte range `[s, e)` of a buffer (`&mmap[s..e]`). -/
def listSlice (xs : List Nat) (s e : Nat) : List Nat := (xs.drop s).take (e - s)

/-- `BTreeMap::insert` on a name-sorted association list. -/
def btreeInsert (k : String) (v : β) : List (String × β) → List (String × β)
  | [] => [(k, v)]
  | (k2, v2) :: rest =>
    if strLt k k2 then (k, v) :: (k2, v2) :: rest
    else if k = k2 then (k, v) :: rest
    else (k2, v2) :: btreeInsert k v rest

/-! ## JSON values (serde_json::Value) -/

inductive Json where
  | null : Json
  | bool (b : Bool) : Json
  | num (n : Int) : Json
  | str (s : String) : Json
  | arr (elems : List Json) : Json
  | obj (fields : List (String × Json)) : Json

/-! ## Data model (src/vekt_core/src/storage.rs) -/

/-- `RawTensorMetaData`: one entry of a safetensors header.  `extra` is the
`#[serde(flatten)]` `IndexMap` of unrecognized keys, in insertion order. -/
structure RawTensorMetaData where
  shape : List Nat
  dtype : String
  dataOffsets : Nat × Nat
  extra : List (String × Json)

/-- `ManifestTensor`: one manifest entry; `hash` is the blob digest,
`index` the physical position in the original file.  `extra` is a plain
(`#[serde(default)]`, not flattened) field. -/
structure ManifestTensor (α : Type) where
  shape : List Nat
  dtype : String
  hash : α
  index : Nat
  extra : List (String × Json)

/-- `VektManifest`; `tensors` is a `BTreeMap` modelled as a name-sorted
association list. -/
structure VektManifest (α : Type) where
  tensors : List (String × ManifestTensor α)
  version : String
  totalSize : Nat

/-- The error type (src/vekt_core/src/errors.rs), restricted to the variants
the embedded operations can produce.  `io` carries the propagated
`std::io::Error` message; `tensorCorruption` carries the pieces of the
formatted message (tensor name, end byte, file length). -/
inductive VektError (α : Type) where
  | io (msg : String)
  | invalidSafetensor (msg : String)
  | tensorCorruption (name : String) (endByte : Nat) (fileLen : Nat)
  | blobNotFound (h : α)

/-- An opened safetensors file (`SafetensorFile`): the parsed header in
physical order, the memory map, and the header length `H`. -/
structure SafetensorFile where
  header : List (String × RawTensorMetaData)
  mmap : List Nat
  headerLen : Nat

/-! ## utils.rs: dtype table and lock file -/

/-- `get_dtype_size` (src/vekt_core/src/utils.rs:49-62), including the
1-byte fallback for unknown dtypes. -/
def getDtypeSize (dtype : String) : Nat :=
  match dtype with
  | "F32" => 4
  | "F16" => 2
  | "BF16" => 2
  | "I64" => 8
  | "I32" => 4
  | "I16" => 2
  | "I8" => 1
  | "U8" => 1
  | "BOOL" => 1
  | _ => 1

/-- `product(shape) * dtype_size(dtype)`, the size the restorer assigns to a
tensor in its header (storage.rs:120-121). -/
def sizeBytes (t : ManifestTensor α) : Nat := t.shape.prod * getDtypeSize t.dtype

/-- `LockFile::lock` (utils.rs:69-87).  The filesystem is the list of
existing file paths; `create_new` fails iff the path already exists, else the
lock file is created and its path is the handle. -/
def lockAcquire (fs : List String) (path : String) : Except String (List String × String) :=
  if path ∈ fs then .error ("vekt is currently locked by another process.")
  else .ok (path :: fs, path)

/-- `impl Drop for LockFile` (utils.rs:89-93): unlink the lock file.  Rust
runs this on every scope exit, including error paths. -/
def lockRelease (fs : List String) (handle : String) : List String := fs.erase handle

/-! ## blobs.rs: content-addressed store -/

/-- `save_blob_deduplicated` / `write_blob_atomic` (blobs.rs:27-67):
if a blob with this digest exists the store is unchanged, otherwise the blob
is written under its digest. -/
def saveBlobDedup [DecidableEq α] (hashFn : List Nat → α) (st : List (α × List Nat))
    (data : List Nat) : List (α × List Nat) :=
  if (lookupAssoc st (hashFn data)).isSome then st else (hashFn data, data) :: st

/-! ## lib.rs: the ingestor (`SafetensorFile::process`) -/

/-- Per-tensor step of `process` (lib.rs:85-112): bounds check against the
memory map, then hash of the payload slice.  On a range past the end of the
file the per-tensor result is `TensorCorruption` naming the tensor. -/
def processTensor (hashFn : List Nat → α) (f : SafetensorFile) (idx : Nat) (name : String)
    (meta : RawTensorMetaData) : Except (VektError α) (String × ManifestTensor α × Nat × Nat) :=
  let absStart := f.headerLen + 8 + meta.dataOffsets.1
  let absEnd := f.headerLen + 8 + meta.dataOffsets.2
  if absEnd > f.mmap.length then
    .error (.tensorCorruption name absEnd f.mmap.length)
  else
    .ok (name, ⟨meta.shape, meta.dtype, hashFn (listSlice f.mmap absStart absEnd), idx, meta.extra⟩,
      absStart, absEnd)

/-- The fail-fast collection loop of `process` (lib.rs:115-123): walk the
per-tensor results in header order, return the first error, otherwise insert
into the `BTreeMap` and record the valid byte range. -/
def buildResults : List (Except (VektError α) (String × ManifestTensor α × Nat × Nat)) →
    List (String × ManifestTensor α) → List (Nat × Nat) →
    Except (VektError α) (List (String × ManifestTensor α) × List (Nat × Nat))
  | [], acc, ventries => .ok (acc, ventries.reverse)
  | .error err :: _, _, _ => .error err
  | .ok (name, t, s, e) :: rest, acc, ventries =>
    buildResults rest (btreeInsert name t acc) ((s, e) :: ventries)

/-- `SafetensorFile::process` (lib.rs:74-143).  The hashing pass is a
parallel map whose deterministic result list is collected fail-fast; the
optional blob-saving pass writes each valid slice through the deduplicating
store (the store is threaded explicitly; its in-process I/O cannot fail in
the model). -/
def process [DecidableEq α] (hashFn : List Nat → α) (f : SafetensorFile) (saveBlobs : Bool)
    (st : List (α × List Nat)) : Except (VektError α) (VektManifest α × List (α × List Nat)) :=
  match buildResults (f.header.enum.map (fun p => processTensor hashFn f p.1 p.2.1 p.2.2)) [] [] with
  | .error err => .error err
  | .ok (tensors, ventries) =>
    let st2 := if saveBlobs then
        ventries.foldl (fun acc se => saveBlobDedup hashFn acc (listSlice f.mmap se.1 se.2)) st
      else st
    .ok ({ tensors := tensors, version := "1.0", totalSize := f.mmap.length }, st2)

/-! ## storage.rs: the restorer (`VektManifest::restore`) -/

/-- The layer filter (storage.rs:82-89): keep a name iff it contains any of
the comma-separated, trimmed terms; no filter keeps everything. -/
def includeName (filter : Option String) (name : String) : Bool :=
  match filter with
  | none => true
  | some f => (splitChar ',' f.toList).any (fun term => listIsInfixOf (trimCharList term) name.toList)

/-- The `sort_by_key(|name| tensors[name].index)` step (storage.rs:93);
Rust's sort is stable, modelled by a stable insertion sort. -/
def sortByIndex (l : List (String × ManifestTensor α)) : List (String × ManifestTensor α) :=
  List.insertionSort (fun a b => a.2.index ≤ b.2.index) l

instance : IsTotal (String × ManifestTensor α) (fun a b => a.2.index ≤ b.2.index) :=
  ⟨fun a b => Nat.le_total a.2.index b.2.index⟩

instance : IsTrans (String × ManifestTensor α) (fun a b => a.2.index ≤ b.2.index) :=
  ⟨fun _ _ _ => Nat.le_trans⟩

/-- The filtered tensor list in restore order. -/
def includedSorted (m : VektManifest α) (filter : Option String) :
    List (String × ManifestTensor α) :=
  sortByIndex (m.tensors.filter (fun p => includeName filter p.1))

/-- Pass 1 of restore (storage.rs:101-135): assign data offsets walking the
sorted tensors, aliasing hashes already seen, 8-aligning fresh ones.
Returns the header entries (in insertion order) and the final offset cursor. -/
def restorePass1 [DecidableEq α] : List (String × ManifestTensor α) → Nat →
    List (α × (Nat × Nat)) → List (String × RawTensorMetaData) × Nat
  | [], off, _ => ([], off)
  | (name, t) :: rest, off, written =>
    match lookupAssoc written t.hash with
    | some se =>
      let r := restorePass1 rest off written
      ((name, ⟨t.shape, t.dtype, se, t.extra⟩) :: r.1, r.2)
    | none =>
      let padding := (8 - off % 8) % 8
      let start := off + padding
      let size := t.shape.prod * getDtypeSize t.dtype
      let r := restorePass1 rest (start + size) ((t.hash, (start, start + size)) :: written)
      ((name, ⟨t.shape, t.dtype, (start, start + size), t.extra⟩) :: r.1, r.2)

/-- Pass 2 of restore (storage.rs:144-171): walk the same order, skip hashes
already written, else write alignment padding, then stream the blob.
`File::open` on a missing blob surfaces the OS error through `VektError::Io`.
Each produced chunk records (padding written, blob hash, blob bytes copied). -/
def restorePass2 [DecidableEq α] (store : List (α × List Nat)) :
    List (String × ManifestTensor α) → Nat → List α →
    Except (VektError α) (List (Nat × α × List Nat))
  | [], _, _ => .ok []
  | (_, t) :: rest, pos, written =>
    if t.hash ∈ written then restorePass2 store rest pos written
    else
      let padding := (8 - pos % 8) % 8
      match lookupAssoc store t.hash with
      | none => .error (.io ("No such file or directory (os error 2)"))
      | some blob =>
        (restorePass2 store rest (pos + padding + blob.length) (t.hash :: written)).map
          (fun chunks => (padding, t.hash, blob) :: chunks)

/-- The bytes a pass-2 chunk contributes to the data section. -/
def chunkBytes (c : Nat × α × List Nat) : List Nat := List.replicate c.1 0 ++ c.2.2

/-- The data section assembled from the pass-2 chunks. -/
def chunksBytes (cs : List (Nat × α × List Nat)) : List Nat := (cs.map chunkBytes).flatten

/-- The byte range each chunk's blob occupies in the data section, given the
position the first chunk starts at. -/
def chunkRegions : Nat → List (Nat × α × List Nat) → List (Nat × Nat)
  | _, [] => []
  | pos, (pad, _, b) :: rest =>
    (pos + pad, pos + pad + b.length) :: chunkRegions (pos + pad + b.length) rest

/-- The restored file: `8-byte LE header length ++ header JSON ++ data`.
The embedding keeps the header entries (insertion order of the emitted
`IndexMap`), the data section bytes, and the trace of blob copies. -/
structure RestoreOutput (α : Type) where
  headerEntries : List (String × RawTensorMetaData)
  data : List Nat
  writes : List α

/-- `VektManifest::restore` (storage.rs:70-176). -/
def restore [DecidableEq α] (m : VektManifest α) (store : List (α × List Nat))
    (filter : Option String) : Except (VektError α) (RestoreOutput α) :=
  let ts := includedSorted m filter
  let p1 := restorePass1 ts 0 []
  (restorePass2 store ts 0 []).map
    (fun chunks => ⟨p1.1, chunksBytes chunks, chunks.map (fun c => c.2.1)⟩)

/-! ## Manifest (de)serialization (serde derives on storage.rs:24-44) -/

def jsonNat (n : Nat) : Json := Json.num (Int.ofNat n)

/-- Serialization of one `ManifestTensor` by the serde derive: fields in
declaration order; `extra` is a plain field, so it is emitted under a nested
key named `extra` preserving the `IndexMap` insertion order. -/
def toJsonTensor (t : ManifestTensor String) : Json :=
  Json.obj [("shape", Json.arr (t.shape.map jsonNat)),
            ("dtype", Json.str t.dtype),
            ("hash", Json.str t.hash),
            ("index", jsonNat t.index),
            ("extra", Json.obj t.extra)]

/-- Serialization of a `VektManifest`: fields in declaration order; the
`BTreeMap` iterates in ascending name order, which in the model is the list
order of `tensors`. -/
def toJsonManifest (m : VektManifest String) : Json :=
  Json.obj [("tensors", Json.obj (m.tensors.map (fun p => (p.1, toJsonTensor p.2)))),
            ("version", Json.str m.version),
            ("total_size", jsonNat m.totalSize)]

/-- serde deserialization of a `usize`. -/
def parseNat (j : Json) : Option Nat :=
  match j with
  | Json.num n => if 0 ≤ n then some n.toNat else none
  | _ => none

def parseShape (j : Json) : Option (List Nat) :=
  match j with
  | Json.arr elems => elems.mapM parseNat
  | _ => none

def parseStr (j : Json) : Option String :=
  match j with
  | Json.str s => some s
  | _ => none

/-- `IndexMap::insert`: replace in place if the key exists, else append. -/
def indexMapInsert (k : String) (v : Json) (l : List (String × Json)) : List (String × Json) :=
  if (lookupAssoc l k).isSome then l.map (fun p => if p.1 = k then (k, v) else p)
  else l ++ [(k, v)]

/-- serde deserialization of an `IndexMap<String, Value>`. -/
def parseExtra (j : Json) : Option (List (String × Json)) :=
  match j with
  | Json.obj fields => some (fields.foldl (fun acc p => indexMapInsert p.1 p.2 acc) [])
  | _ => none

/-- serde deserialization of a `ManifestTensor`; `extra` defaults to empty
(`#[serde(default)]`) when the key is absent. -/
def fromJsonTensor (j : Json) : Option (ManifestTensor String) :=
  match j with
  | Json.obj fields => do
    let shape ← (lookupAssoc fields ("shape")).bind parseShape
    let dtype ← (lookupAssoc fields ("dtype")).bind parseStr
    let hash ← (lookupAssoc fields ("hash")).bind parseStr
    let index ← (lookupAssoc fields ("index")).bind parseNat
    let extra ←
      match lookupAssoc fields ("extra") with
      | none => some []
      | some ej => parseExtra ej
    some ⟨shape, dtype, hash, index, extra⟩
  | _ => none

/-- serde deserialization of the `BTreeMap<String, ManifestTensor>`: insert
the entries in encounter order. -/
def fromJsonTensors (j : Json) : Option (List (String × ManifestTensor String)) :=
  match j with
  | Json.obj fields =>
    fields.foldlM (fun acc p => (fromJsonTensor p.2).map (fun t => btreeInsert p.1 t acc)) []
  | _ => none

/-- serde deserialization of a `VektManifest`. -/
def fromJsonManifest (j : Json) : Option (VektManifest String) :=
  match j with
  | Json.obj fields => do
    let tensors ← (lookupAssoc fields ("tensors")).bind fromJsonTensors
    let version ← (lookupAssoc fields ("version")).bind parseStr
    let totalSize ← (lookupAssoc fields ("total_size")).bind parseNat
    some ⟨tensors, version, totalSize⟩
  | _ => none

/-- JSON escaping of one character (quote and backslash suffice for the
manifests modelled here). -/
def escapeChar (c : Char) : String :=
  if c = '"' then "\\\"" else if c = '\\' then "\\\\" else Char.toString c

def renderStr (s : String) : String :=
  "\"" ++ String.join (s.toList.map escapeChar) ++ "\""

mutual

/-- A JSON text rendering of a `Json` value (compact form).  serde_json's
text layer is injective on the values produced here, so byte equality of
serializations reduces to equality of `Json` values. -/
def renderJson : Json → String
  | Json.null => "null"
  | Json.bool true => "true"
  | Json.bool false => "false"
  | Json.num n => toString n
  | Json.str s => renderStr s
  | Json.arr elems => "[" ++ renderJsonElems elems ++ "]"
  | Json.obj fields => "\x7b" ++ renderJsonFields fields ++ "\x7d"

def renderJsonElems : List Json → String
  | [] => ""
  | [x] => renderJson x
  | x :: y :: rest => renderJson x ++ "," ++ renderJsonElems (y :: rest)

def renderJsonFields : List (String × Json) → String
  | [] => ""
  | [(k, v)] => renderStr k ++ ":" ++ renderJson v
  | (k, v) :: q :: rest =>
    renderStr k ++ ":" ++ renderJson v ++ "," ++ renderJsonFields (q :: rest)

end

/-- The serialized manifest bytes (`serde_json::to_string` of the model;
pretty-printing only inserts whitespace and does not affect any equality of
serializations). -/
def serializeManifest (m : VektManifest String) : String := renderJson (toJsonManifest m)

/-! ## gc.rs: the garbage collector -/

/-- A directory tree as `run_gc` sees it: a file's content is given at the
granularity of the JSON text already decoded (what `serde_json::from_reader`
parses). -/
inductive FsEntry where
  | file (name : String) (content : Json) : FsEntry
  | dir (name : String) (entries : List FsEntry) : FsEntry

/-- All hashes referenced by a manifest (`manifest.tensors.values().hash`). -/
def manifestHashes (m : VektManifest String) : List String :=
  m.tensors.map (fun p => p.2.hash)

/-- The directory names `scan_manifests` skips (gc.rs:54). -/
def skipDirNames : List String := [".git", ".vekt", "target", "node_modules"]

/-- `scan_manifests` (gc.rs:46-72): recurse into directories except the
skipped ones; for each file named `*.vekt.json` that parses as a manifest,
collect its tensor hashes; parse failures are silently skipped. -/
def scanManifests : List FsEntry → List String
  | [] => []
  | FsEntry.dir name entries :: rest =>
    (if name ∈ skipDirNames then [] else scanManifests entries) ++ scanManifests rest
  | FsEntry.file name content :: rest =>
    (if strEndsWith name (".vekt.json") then
      match fromJsonManifest content with
      | some m => manifestHashes m
      | none => []
    else []) ++ scanManifests rest

/-- `scan_git_history` (gc.rs:74-178) at the granularity of the decoded
`cat-file --batch` frames: each frame's payload is parsed as a manifest and
its hashes collected; frames that fail to parse are skipped.  The git
plumbing that produces the frames is an external subprocess. -/
def scanHistory (frames : List Json) : List String :=
  frames.flatMap (fun j =>
    match fromJsonManifest j with
    | some m => manifestHashes m
    | none => [])

structure GcStats where
  deleted : Nat
  kept : Nat

/-- `run_gc` (gc.rs:14-44): collect the referenced hashes from the working
tree and the VCS history, then delete every blob-store entry whose name is
not referenced.  Returns the stats and the surviving store entries. -/
def runGc (workTree : List FsEntry) (historyFrames : List Json) (store : List String) :
    GcStats × List String :=
  let referenced := scanManifests workTree ++ scanHistory historyFrames
  let kept := store.filter (fun name => referenced.contains name)
  let deleted := store.filter (fun name => !(referenced.contains name))
  (⟨deleted.length, kept.length⟩, kept)

/-- Declarative counterpart of `scan_manifests`: the hash is referenced by a
parseable `*.vekt.json` manifest reachable without entering a skipped
directory. -/
inductive RefIn : FsEntry → String → Prop where
  | file (name : String) (content : Json) (m : VektManifest String) (h : String) :
      strEndsWith name (".vekt.json") = true → fromJsonManifest content = some m →
      h ∈ manifestHashes m → RefIn (FsEntry.file name content) h
  | dir (name : String) (entries : List FsEntry) (e : FsEntry) (h : String) :
      name ∉ skipDirNames → e ∈ entries → RefIn e h → RefIn (FsEntry.dir name entries) h

/-- The claim's reading of `referenced in the working tree`: the hash is
referenced by a parseable `*.vekt.json` manifest anywhere in the tree,
with no directory excluded. -/
inductive InTree : FsEntry → String → Prop where
  | file (name : String) (content : Json) (m : VektManifest String) (h : String) :
      strEndsWith name (".vekt.json") = true → fromJsonManifest content = some m →
      h ∈ manifestHashes m → InTree (FsEntry.file name content) h
  | dir (name : String) (entries : List FsEntry) (e : FsEntry) (h : String) :
      e ∈ entries → InTree e h → InTree (FsEntry.dir name entries) h

/-! ## Predicates used by the claims -/

/-- A valid safetensors file in the sense of the specification's data model:
distinct tensor names, every tensor's byte range inside the file with
`start ≤ end`, and `end - start` equal to `product(shape) × dtype_size`. -/
def ValidSafetensors (f : SafetensorFile) : Prop :=
  (f.header.map Prod.fst).Nodup ∧
  ∀ p ∈ f.header,
    p.2.dataOffsets.1 ≤ p.2.dataOffsets.2 ∧
    f.headerLen + 8 + p.2.dataOffsets.2 ≤ f.mmap.length ∧
    p.2.dataOffsets.2 - p.2.dataOffsets.1 = p.2.shape.prod * getDtypeSize p.2.dtype

/-- The well-formedness invariants of an in-memory manifest: the `BTreeMap`
association list is strictly name-sorted and each tensor's `IndexMap` of
extra keys has no duplicate key. -/
def WfManifest (m : VektManifest String) : Prop :=
  m.tensors.Pairwise (fun a b => strLt a.1 b.1 = true) ∧
  ∀ p ∈ m.tensors, (p.2.extra.map Prod.fst).Nodup

/-- The tensors of `ts` that restore's pass 2 copies a blob for: the first
occurrence of each hash, given the hashes already seen. -/
def writtenTensors [DecidableEq α] : List (String × ManifestTensor α) → List α →
    List (String × ManifestTensor α)
  | [], _ => []
  | (n, t) :: rest, seen =>
    if t.hash ∈ seen then writtenTensors rest seen
    else (n, t) :: writtenTensors rest (t.hash :: seen)

/-- Every tensor of `ts` has its blob in the store. -/
def BlobsPresent [DecidableEq α] (store : List (α × List Nat))
    (ts : List (String × ManifestTensor α)) : Prop :=
  ∀ p ∈ ts, ∃ b, lookupAssoc store p.2.hash = some b

/-- Every blob that pass 2 copies has the length pass 1 assumed,
`product(shape) × dtype_size(dtype)` of the tensor that first used its hash. -/
def SizesMatch [DecidableEq α] (store : List (α × List Nat))
    (ts : List (String × ManifestTensor α)) : Prop :=
  ∀ p ∈ writtenTensors ts [], ∀ b, lookupAssoc store p.2.hash = some b →
    b.length = sizeBytes p.2

/-- The invariant tying restore's two passes together: positions recorded in
pass 1's seen-hash map are 8-aligned ranges of already-emitted data that hold
exactly the blob's bytes, and the recorded hashes agree with pass 2's
written set. -/
def GoodState [DecidableEq α] (store : List (α × List Nat)) (pre : List Nat)
    (w1 : List (α × (Nat × Nat))) (w2 : List α) : Prop :=
  (∀ h se, lookupAssoc w1 h = some se → h ∈ w2 ∧ se.1 % 8 = 0 ∧
     ∃ b, lookupAssoc store h = some b ∧ se.2 = se.1 + b.length ∧ se.2 ≤ pre.length ∧
       listSlice pre se.1 se.2 = b) ∧
  (∀ h ∈ w2, ∃ se, lookupAssoc w1 h = some se)

/-- The restored header's offsets describe the bytes actually written: the
slice of the data section at every tensor's assigned offsets is exactly the
stored blob of that tensor's hash, and the data section is exactly as long
as pass 1's final cursor. -/
def OffsetsDescribeData [DecidableEq α] (store : List (α × List Nat)) (m : VektManifest α)
    (filter : Option String) (out : RestoreOutput α) : Prop :=
  (∀ k (hk : k < (includedSorted m filter).length) (hk2 : k < out.headerEntries.length),
    ∀ b, lookupAssoc store ((includedSorted m filter).get ⟨k, hk⟩).2.hash = some b →
      listSlice out.data (out.headerEntries.get ⟨k, hk2⟩).2.dataOffsets.1
          (out.headerEntries.get ⟨k, hk2⟩).2.dataOffsets.2 = b) ∧
  out.data.length = (restorePass1 (includedSorted m filter) 0 []).2

/-- The manifest entries the ingestor produces for a file, in header order:
name, shape and dtype copied, hash of the payload slice, index the physical
position. -/
def entriesOf (hashFn : List Nat → α) (f : SafetensorFile) :
    List (String × ManifestTensor α) :=
  f.header.enum.map (fun p =>
    (p.2.1, ⟨p.2.2.shape, p.2.2.dtype,
      hashFn (listSlice f.mmap (f.headerLen + 8 + p.2.2.dataOffsets.1)
        (f.headerLen + 8 + p.2.2.dataOffsets.2)),
      p.1, p.2.2.extra⟩))

/-- The `BTreeMap` of manifest entries the ingestor builds, as the fold of
`BTreeMap::insert` over the entries in header order. -/
def tensorsOf [DecidableEq α] (hashFn : List Nat → α) (f : SafetensorFile) :
    List (String × ManifestTensor α) :=
  (entriesOf hashFn f).foldl (fun acc q => btreeInsert q.1 q.2 acc) []

/-- The absolute byte ranges of the tensors, in header order
(`valid_entries` in lib.rs). -/
def ventriesOf (f : SafetensorFile) : List (Nat × Nat) :=
  f.header.map (fun p => (f.headerLen + 8 + p.2.dataOffsets.1,
    f.headerLen + 8 + p.2.dataOffsets.2))

/-- Projection of a serialized manifest: the JSON object serialized for the
tensor of the given name. -/
def manifestTensorObj (j : Json) (name : String) : Option Json :=
  match j with
  | Json.obj fields =>
    match lookupAssoc fields ("tensors") with
    | some (Json.obj tf) => lookupAssoc tf name
    | _ => none
  | _ => none

/-! ## Concrete instances used by counterexamples and witnesses -/

/-- A manifest referencing a blob that is absent from the store. -/
def mct8 : VektManifest String :=
  ⟨[("t", ⟨[1], "U8", "deadbeef", 0, []⟩)], "1.0", 1⟩

/-- A one-tensor manifest referencing blob `cafe`. -/
def ctM2 : VektManifest String :=
  ⟨[("w", ⟨[1], "U8", "cafe", 0, []⟩)], "1.0", 1⟩

/-- A manifest whose tensor carries extra metadata (scenario S4). -/
def mw5 : VektManifest String :=
  ⟨[("a", ⟨[2], "F32", "aa11", 0, [("quantization", Json.str ("int8")),
      ("license", Json.str ("MIT"))]⟩),
    ("b", ⟨[1], "U8", "bb22", 1, []⟩)], "1.0", 9⟩

/-- A manifest with one extra key, used to exhibit the nesting of `extra`. -/
def mct6 : VektManifest String :=
  ⟨[("t", ⟨[1], "U8", "aa11", 0, [("quantization", Json.str ("int8"))]⟩)], "1.0", 1⟩

/-- Scenario S3: two one-byte tensors forcing alignment padding. -/
def mw3 : VektManifest String :=
  ⟨[("tensor_a", ⟨[1], "U8", "ca", 0, []⟩), ("tensor_b", ⟨[1], "U8", "db", 1, []⟩)], "1.0", 2⟩

/-- The blob store for `mw3`. -/
def sw3 : List (String × List Nat) := [("ca", [204]), ("db", [221])]

/-- Scenario S2: two tensors sharing one hash. -/
def mw4 : VektManifest String :=
  ⟨[("tensor_a", ⟨[4], "U8", "hh", 0, []⟩), ("tensor_b", ⟨[4], "U8", "hh", 1, []⟩)], "1.0", 4⟩

/-- The blob store for `mw4`. -/
def sw4 : List (String × List Nat) := [("hh", [17, 34, 51, 68])]

/-- A working tree whose only manifest sits inside a `target` directory. -/
def ctTree2 : List FsEntry :=
  [FsEntry.dir ("target") [FsEntry.file ("m.vekt.json") (toJsonManifest ctM2)]]

/-! # Theorems -/

/-! ## Claim C9: lock exclusivity and release -/

/-- C9: while a lock acquisition on a repository's lock path is held, a
second `LockFile::lock` on the same path fails with the already-locked
error; the `Drop` impl (which Rust runs on every scope exit, including error
paths) unlinks the lock file, after which a new acquisition succeeds. -/
theorem c9_lock_exclusive (fs : List String) (path : String) (hfree : path ∉ fs) :
    lockAcquire fs path = .ok (path :: fs, path) ∧
    lockAcquire (path :: fs) path = .error ("vekt is currently locked by another process.") ∧
    lockRelease (path :: fs) path = fs ∧
    lockAcquire (lockRelease (path :: fs) path) path = .ok (path :: fs, path) := by
  refine ⟨?_, ?_, ?_, ?_⟩
  · simp [lockAcquire, hfree]
  · simp [lockAcquire]
  · simp [lockRelease]
  · simp [lockRelease, lockAcquire, hfree]

/-- Witness for C9 at a concrete repository lock path. -/
theorem c9_lock_exclusive_witness :
    (".vekt/lock" ∉ ([] : List String)) ∧
    (lockAcquire [] (".vekt/lock") = .ok ([".vekt/lock"], ".vekt/lock") ∧
     lockAcquire [".vekt/lock"] (".vekt/lock") =
       .error ("vekt is currently locked by another process.") ∧
     lockRelease [".vekt/lock"] (".vekt/lock") = [] ∧
     lockAcquire (lockRelease [".vekt/lock"] (".vekt/lock")) (".vekt/lock") =
       .ok ([".vekt/lock"], ".vekt/lock")) :=
  ⟨by decide, c9_lock_exclusive [] (".vekt/lock") (by decide)⟩

/-! ## Claim C7: corrupted tensor ranges abort ingestion -/

/-- The fail-fast collection loop surfaces a `TensorCorruption` error when
some header entry's absolute range extends past the end of the file. -/
theorem buildResults_error_of_bad (hashFn : List Nat → α) (f : SafetensorFile) :
    ∀ (l : List (String × RawTensorMetaData)) (i : Nat) (acc : List (String × ManifestTensor α))
      (ventries : List (Nat × Nat)),
      (∃ p ∈ l, f.mmap.length < f.headerLen + 8 + p.2.dataOffsets.2) →
      ∃ nm meta, (nm, meta) ∈ l ∧ f.mmap.length < f.headerLen + 8 + meta.dataOffsets.2 ∧
        buildResults ((List.enumFrom i l).map (fun p => processTensor hashFn f p.1 p.2.1 p.2.2))
            acc ventries =
          .error (.tensorCorruption nm (f.headerLen + 8 + meta.dataOffsets.2) f.mmap.length) := by
  intro l
  induction l with
  | nil => intro i acc ventries h; simp at h
  | cons hd rest ih =>
    intro i acc ventries h
    by_cases hbad : f.mmap.length < f.headerLen + 8 + hd.2.dataOffsets.2
    · refine ⟨hd.1, hd.2, by simp, hbad, ?_⟩
      simp [List.enumFrom_cons, processTensor, buildResults, Nat.lt_iff_add_one_le.mp hbad,
        if_pos (show f.headerLen + 8 + hd.2.dataOffsets.2 > f.mmap.length from hbad)]
    · have hrest : ∃ p ∈ rest, f.mmap.length < f.headerLen + 8 + p.2.dataOffsets.2 := by
        obtain ⟨p, hp, hplt⟩ := h
        rcases List.mem_cons.mp hp with rfl | hp2
        · exact absurd hplt hbad
        · exact ⟨p, hp2, hplt⟩
      obtain ⟨nm, meta, hmem, hlt, heq⟩ := ih (i + 1)
        (btreeInsert hd.1 ⟨hd.2.shape, hd.2.dtype,
          hashFn (listSlice f.mmap (f.headerLen + 8 + hd.2.dataOffsets.1)
            (f.headerLen + 8 + hd.2.dataOffsets.2)), i, hd.2.extra⟩ acc)
        ((f.headerLen + 8 + hd.2.dataOffsets.1, f.headerLen + 8 + hd.2.dataOffsets.2) :: ventries)
        hrest
      refine ⟨nm, meta, List.mem_cons_of_mem hd hmem, hlt, ?_⟩
      rw [List.enumFrom_cons, List.map_cons]
      simp only [processTensor, if_neg (show ¬ f.headerLen + 8 + hd.2.dataOffsets.2 > f.mmap.length
        from hbad)]
      exact heq

/-- C7: for every opened safetensors file with a tensor whose absolute byte
range `[8 + H + start, 8 + H + end)` extends past the end of the file,
`process` fails with a `TensorCorruption` error naming such a tensor (the
first offending one in header order), so no manifest is produced. -/
theorem c7_corruption_aborts [DecidableEq α] (hashFn : List Nat → α) (f : SafetensorFile)
    (saveBlobs : Bool) (st : List (α × List Nat))
    (hbad : ∃ p ∈ f.header, f.mmap.length < f.headerLen + 8 + p.2.dataOffsets.2) :
    ∃ nm meta, (nm, meta) ∈ f.header ∧
      f.mmap.length < f.headerLen + 8 + meta.dataOffsets.2 ∧
      process hashFn f saveBlobs st =
        .error (.tensorCorruption nm (f.headerLen + 8 + meta.dataOffsets.2) f.mmap.length) := by
  obtain ⟨nm, meta, hmem, hlt, heq⟩ := buildResults_error_of_bad hashFn f f.header 0 [] [] hbad
  refine ⟨nm, meta, hmem, hlt, ?_⟩
  simp only [process, List.enum]
  rw [heq]

/-- Witness for C7: scenario S6, a header declaring a tensor at `[0, 16]`
over a file with only 8 payload bytes. -/
theorem c7_corruption_aborts_witness :
    (∃ p ∈ ([("t", (⟨[4], "F32", (0, 16), []⟩ : RawTensorMetaData))] :
        List (String × RawTensorMetaData)),
      (List.replicate 17 0).length < 1 + 8 + p.2.dataOffsets.2) ∧
    (∃ nm meta,
      (nm, meta) ∈ (SafetensorFile.mk [("t", ⟨[4], "F32", (0, 16), []⟩)]
        (List.replicate 17 0) 1).header ∧
      (SafetensorFile.mk [("t", ⟨[4], "F32", (0, 16), []⟩)] (List.replicate 17 0) 1).mmap.length <
        (SafetensorFile.mk [("t", ⟨[4], "F32", (0, 16), []⟩)] (List.replicate 17 0) 1).headerLen +
          8 + meta.dataOffsets.2 ∧
      process (fun bs => bs) (SafetensorFile.mk [("t", ⟨[4], "F32", (0, 16), []⟩)]
          (List.replicate 17 0) 1) true [] =
        .error (.tensorCorruption nm
          ((SafetensorFile.mk [("t", ⟨[4], "F32", (0, 16), []⟩)] (List.replicate 17 0) 1).headerLen +
            8 + meta.dataOffsets.2)
          (SafetensorFile.mk [("t", ⟨[4], "F32", (0, 16), []⟩)] (List.replicate 17 0) 1).mmap.length)) :=
  ⟨⟨(("t"), ⟨[4], "F32", (0, 16), []⟩), List.mem_singleton.mpr rfl, by decide⟩,
   c7_corruption_aborts (fun bs => bs)
     (SafetensorFile.mk [("t", ⟨[4], "F32", (0, 16), []⟩)] (List.replicate 17 0) 1) true []
     ⟨(("t"), ⟨[4], "F32", (0, 16), []⟩), List.mem_singleton.mpr rfl, by decide⟩⟩

/-! ## Claim C8: missing blob at restore -/

/-- Pass 2 aborts with the propagated I/O error as soon as it reaches a
tensor whose blob is missing, provided every hash already marked written had
a present blob. -/
theorem pass2_error_of_missing [DecidableEq α] (store : List (α × List Nat)) :
    ∀ (ts : List (String × ManifestTensor α)) (pos : Nat) (w2 : List α),
      (∀ h ∈ w2, (lookupAssoc store h).isSome) →
      (∃ p ∈ ts, lookupAssoc store p.2.hash = none) →
      restorePass2 store ts pos w2 = .error (.io ("No such file or directory (os error 2)")) := by
  intro ts
  induction ts with
  | nil => intro pos w2 _ h; simp at h
  | cons hd rest ih =>
    intro pos w2 hw2 h
    by_cases hmem : hd.2.hash ∈ w2
    · have hrest : ∃ p ∈ rest, lookupAssoc store p.2.hash = none := by
        obtain ⟨p, hp, hpn⟩ := h
        rcases List.mem_cons.mp hp with rfl | hp2
        · exact absurd (hw2 p.2.hash hmem) (by simp [hpn])
        · exact ⟨p, hp2, hpn⟩
      have := ih pos w2 hw2 hrest
      simpa [restorePass2, hmem] using this
    · rcases hlook : lookupAssoc store hd.2.hash with _ | b
      · simp only [restorePass2, if_neg hmem]
        rw [hlook]
      · have hrest : ∃ p ∈ rest, lookupAssoc store p.2.hash = none := by
          obtain ⟨p, hp, hpn⟩ := h
          rcases List.mem_cons.mp hp with rfl | hp2
          · rw [hlook] at hpn; exact absurd hpn (by simp)
          · exact ⟨p, hp2, hpn⟩
        have hw2' : ∀ h2 ∈ hd.2.hash :: w2, (lookupAssoc store h2).isSome := by
          intro h2 hh2
          rcases List.mem_cons.mp hh2 with rfl | hh22
          · simp [hlook]
          · exact hw2 h2 hh22
        have := ih (pos + (8 - pos % 8) % 8 + b.length) (hd.2.hash :: w2) hw2' hrest
        simp only [restorePass2, if_neg hmem]
        rw [hlook]
        simp [this, Except.map]

/-- C8 (amended): for every manifest referencing a hash whose blob is absent
from the store, restore aborts; the surfaced error is the propagated
`VektError::Io` from `File::open` on the blob path (`BlobNotFound` is never
constructed by restore, and the missing hash is not named in the error). -/
theorem c8_amended_io_error [DecidableEq α] (m : VektManifest α) (store : List (α × List Nat))
    (filter : Option String)
    (hmiss : ∃ p ∈ includedSorted m filter, lookupAssoc store p.2.hash = none) :
    restore m store filter = .error (.io ("No such file or directory (os error 2)")) := by
  have h2 := pass2_error_of_missing store (includedSorted m filter) 0 [] (by simp) hmiss
  simp [restore, h2, Except.map]

/-- Counterexample for C8 as stated: a one-tensor manifest whose blob is
missing makes restore abort with an `Io` error, not with
`BlobNotFound("deadbeef")`. -/
theorem c8_counterexample :
    restore mct8 [] none = .error (.io ("No such file or directory (os error 2)")) ∧
    restore mct8 [] none ≠ .error (.blobNotFound ("deadbeef")) := by
  constructor
  · rfl
  · intro hc
    have hc2 : VektError.io (α := String) ("No such file or directory (os error 2)") =
        VektError.blobNotFound ("deadbeef") := Except.error.inj hc
    exact VektError.noConfusion hc2

/-- Witness for the amended C8 at the concrete manifest `mct8`. -/
theorem c8_amended_io_error_witness :
    (∃ p ∈ includedSorted mct8 none,
      lookupAssoc ([] : List (String × List Nat)) p.2.hash = none) ∧
    restore mct8 [] none = .error (.io ("No such file or directory (os error 2)")) :=
  ⟨⟨(("t"), ⟨[1], "U8", "deadbeef", 0, []⟩), List.mem_singleton.mpr rfl, rfl⟩,
   c8_amended_io_error mct8 [] none
     ⟨(("t"), ⟨[1], "U8", "deadbeef", 0, []⟩), List.mem_singleton.mpr rfl, rfl⟩⟩

/-! ## Claim C2: garbage collection -/

/-- The recursive working-tree scan collects exactly the hashes reachable in
the sense of `RefIn` (skipped directories excluded). -/
theorem mem_scanManifests : ∀ (entries : List FsEntry) (hh : String),
    hh ∈ scanManifests entries ↔ ∃ e ∈ entries, RefIn e hh
  | [], hh => by simp [scanManifests]
  | FsEntry.dir name es :: rest, hh => by
    have ih1 := mem_scanManifests es hh
    have ih2 := mem_scanManifests rest hh
    simp only [scanManifests, List.mem_append]
    constructor
    · intro hmem
      rcases hmem with hleft | hright
      · by_cases hskip : name ∈ skipDirNames
        · simp [hskip] at hleft
        · rw [if_neg hskip] at hleft
          obtain ⟨e, he, hr⟩ := ih1.mp hleft
          exact ⟨FsEntry.dir name es, List.mem_cons_self _ _,
            RefIn.dir name es e hh hskip he hr⟩
      · obtain ⟨e, he, hr⟩ := ih2.mp hright
        exact ⟨e, List.mem_cons_of_mem _ he, hr⟩
    · intro hex
      obtain ⟨e, he, hr⟩ := hex
      rcases List.mem_cons.mp he with rfl | he2
      · cases hr with
        | dir _ _ e2 _ hskip he2 hr2 =>
          exact Or.inl (by rw [if_neg hskip]; exact ih1.mpr ⟨e2, he2, hr2⟩)
      · exact Or.inr (ih2.mpr ⟨e, he2, hr⟩)
  | FsEntry.file name content :: rest, hh => by
    have ih2 := mem_scanManifests rest hh
    simp only [scanManifests, List.mem_append]
    constructor
    · intro hmem
      rcases hmem with hleft | hright
      · by_cases hend : strEndsWith name (".vekt.json") = true
        · rw [if_pos hend] at hleft
          rcases hparse : fromJsonManifest content with _ | m
          · rw [hparse] at hleft; simp at hleft
          · rw [hparse] at hleft
            exact ⟨FsEntry.file name content, List.mem_cons_self _ _,
              RefIn.file name content m hh hend hparse hleft⟩
        · rw [if_neg hend] at hleft; simp at hleft
      · obtain ⟨e, he, hr⟩ := ih2.mp hright
        exact ⟨e, List.mem_cons_of_mem _ he, hr⟩
    · intro hex
      obtain ⟨e, he, hr⟩ := hex
      rcases List.mem_cons.mp he with rfl | he2
      · cases hr with
        | file _ _ m _ hend hparse hmem2 =>
          exact Or.inl (by rw [if_pos hend, hparse]; exact hmem2)
      · exact Or.inr (ih2.mpr ⟨e, he2, hr⟩)

/-- The history scan collects exactly the hashes of parseable frames. -/
theorem mem_scanHistory (frames : List Json) (hh : String) :
    hh ∈ scanHistory frames ↔
      ∃ j ∈ frames, ∃ m, fromJsonManifest j = some m ∧ hh ∈ manifestHashes m := by
  simp only [scanHistory, List.mem_flatMap]
  constructor
  · intro hmem
    obtain ⟨j, hj, hin⟩ := hmem
    rcases hparse : fromJsonManifest j with _ | m
    · rw [hparse] at hin; simp at hin
    · rw [hparse] at hin
      exact ⟨j, hj, m, hparse, hin⟩
  · intro hex
    obtain ⟨j, hj, m, hparse, hmem2⟩ := hex
    exact ⟨j, hj, by rw [hparse]; exact hmem2⟩

/-- C2 (amended): after `run_gc`, a blob-store entry survives exactly when
some parseable `*.vekt.json` manifest reachable by the scans references it —
reachable meaning the working tree outside the skipped directories (`.git`,
`.vekt`, `target`, `node_modules`) together with the VCS history frames.
Every other entry is deleted. -/
theorem c2_amended_gc (wt : List FsEntry) (hist : List Json) (store : List String)
    (name : String) :
    name ∈ (runGc wt hist store).2 ↔
      name ∈ store ∧ ((∃ e ∈ wt, RefIn e name) ∨
        ∃ j ∈ hist, ∃ m, fromJsonManifest j = some m ∧ name ∈ manifestHashes m) := by
  have hcontains : ∀ l : List String, (l.contains name = true) ↔ name ∈ l := by
    intro l; simp [List.contains]
  simp only [runGc, List.mem_filter]
  rw [hcontains, List.mem_append, mem_scanManifests, mem_scanHistory]

/-- Counterexample for C2 as stated: the working tree contains a parseable
manifest (`target/m.vekt.json`) referencing blob `cafe`, yet `run_gc`
deletes that blob, because the scan skips the `target` directory. -/
theorem c2_counterexample :
    (∃ e ∈ ctTree2, InTree e ("cafe")) ∧
    (runGc ctTree2 [] [("cafe")]).2 = [] ∧
    (runGc ctTree2 [] [("cafe")]).1.deleted = 1 := by
  refine ⟨⟨FsEntry.dir ("target") [FsEntry.file ("m.vekt.json") (toJsonManifest ctM2)],
    List.mem_singleton.mpr rfl,
    InTree.dir _ _ _ _ (List.mem_singleton.mpr rfl)
      (InTree.file ("m.vekt.json") (toJsonManifest ctM2) ctM2 ("cafe") rfl rfl
        (List.mem_singleton.mpr rfl))⟩, ?_, ?_⟩
  · simp [runGc, ctTree2, scanManifests, scanHistory, skipDirNames]
  · simp [runGc, ctTree2, scanManifests, scanHistory, skipDirNames]

/-! ## Claims C5 and C6: canonical manifest serialization -/

theorem strLtList_irrefl : ∀ a : List Char, strLtList a a = false
  | [] => rfl
  | c :: rest => by simp [strLtList, strLtList_irrefl rest]

theorem strLtList_asymm : ∀ a b : List Char,
    strLtList a b = true → strLtList b a = false
  | [], [] => by simp [strLtList]
  | [], _ :: _ => by simp [strLtList]
  | _ :: _, [] => by simp [strLtList]
  | a :: as, b :: bs => by
    simp only [strLtList]
    by_cases h1 : a.toNat < b.toNat
    · have h2 : ¬ b.toNat < a.toNat := fun h3 => absurd (lt_trans h1 h3) (lt_irrefl a.toNat)
      simp [h1, h2]
    · by_cases h2 : b.toNat < a.toNat
      · simp [h1, h2]
      · simp only [if_neg h1, if_neg h2]
        exact strLtList_asymm as bs

theorem strLt_irrefl (a : String) : strLt a a = false := strLtList_irrefl a.toList

theorem strLt_asymm {a b : String} (h : strLt a b = true) : strLt b a = false :=
  strLtList_asymm a.toList b.toList h

theorem strLt_ne {a b : String} (h : strLt a b = true) : a ≠ b := by
  intro heq
  subst heq
  rw [strLt_irrefl] at h
  exact Bool.noConfusion h

/-- Inserting a key greater than every key of a sorted map appends it. -/
theorem btreeInsert_append (k : String) (v : β) :
    ∀ acc : List (String × β), (∀ p ∈ acc, strLt p.1 k = true) →
      btreeInsert k v acc = acc ++ [(k, v)]
  | [], _ => rfl
  | (k2, v2) :: rest, hlt => by
    have h2 : strLt k2 k = true := hlt (k2, v2) (List.mem_cons_self _ _)
    have hnotlt : ¬ strLt k k2 = true := by simp [strLt_asymm h2]
    have hne : k ≠ k2 := fun heq => strLt_ne h2 heq.symm
    simp only [btreeInsert, if_neg hnotlt, if_neg hne, List.cons_append]
    rw [btreeInsert_append k v rest (fun p hp => hlt p (List.mem_cons_of_mem _ hp))]

theorem lookupAssoc_eq_none_of_fresh [DecidableEq κ] (k : κ) :
    ∀ l : List (κ × β), (∀ q ∈ l, k ≠ q.1) → lookupAssoc l k = none
  | [], _ => rfl
  | (k2, v2) :: rest, hfr => by
    have : k ≠ k2 := hfr (k2, v2) (List.mem_cons_self _ _)
    simp only [lookupAssoc, if_neg this]
    exact lookupAssoc_eq_none_of_fresh k rest (fun q hq => hfr q (List.mem_cons_of_mem _ hq))

/-- Folding `IndexMap::insert` over fresh, duplicate-free entries appends
them in order. -/
theorem indexMap_fold_fresh :
    ∀ (l acc : List (String × Json)),
      (∀ p ∈ l, ∀ q ∈ acc, p.1 ≠ q.1) → (l.map Prod.fst).Nodup →
      l.foldl (fun acc2 p => indexMapInsert p.1 p.2 acc2) acc = acc ++ l
  | [], acc, _, _ => by simp
  | (k, v) :: rest, acc, hfr, hnd => by
    have hlook : lookupAssoc acc k = none :=
      lookupAssoc_eq_none_of_fresh k acc
        (fun q hq => hfr (k, v) (List.mem_cons_self _ _) q hq)
    have hnd2 := hnd
    simp only [List.map_cons, List.nodup_cons, List.mem_map] at hnd2
    have hfr2 : ∀ p ∈ rest, ∀ q ∈ acc ++ [(k, v)], p.1 ≠ q.1 := by
      intro p hp q hq
      rcases List.mem_append.mp hq with hq1 | hq2
      · exact hfr p (List.mem_cons_of_mem _ hp) q hq1
      · rcases List.mem_singleton.mp hq2 with rfl
        intro heq
        exact hnd2.1 ⟨p, hp, heq⟩
    simp only [List.foldl_cons]
    rw [show indexMapInsert k v acc = acc ++ [(k, v)] from by simp [indexMapInsert, hlook]]
    rw [indexMap_fold_fresh rest (acc ++ [(k, v)]) hfr2 hnd2.2]
    simp

theorem parseExtra_roundtrip (l : List (String × Json)) (hnd : (l.map Prod.fst).Nodup) :
    parseExtra (Json.obj l) = some l := by
  simp only [parseExtra]
  rw [indexMap_fold_fresh l [] (by simp) hnd]
  simp

theorem parseNat_jsonNat (n : Nat) : parseNat (jsonNat n) = some n := by
  simp [parseNat, jsonNat]

theorem mapM_loop_parseNat : ∀ (l acc : List Nat),
    List.mapM.loop parseNat (l.map jsonNat) acc = some (acc.reverse ++ l)
  | [], acc => by simp [List.mapM.loop]
  | n :: rest, acc => by
    simp only [List.map_cons, List.mapM.loop, parseNat_jsonNat, Option.bind_eq_bind,
      Option.some_bind]
    rw [mapM_loop_parseNat rest (n :: acc)]
    simp

theorem parseShape_roundtrip (l : List Nat) : parseShape (Json.arr (l.map jsonNat)) = some l := by
  simp only [parseShape, List.mapM]
  rw [mapM_loop_parseNat l []]
  simp

/-- Round trip of one tensor entry through the serde derives. -/
theorem fromJsonTensor_roundtrip (t : ManifestTensor String)
    (hnd : (t.extra.map Prod.fst).Nodup) :
    fromJsonTensor (toJsonTensor t) = some t := by
  simp only [toJsonTensor, fromJsonTensor, lookupAssoc]
  simp only [reduceIte]
  simp [parseShape_roundtrip, parseNat_jsonNat, parseStr, parseExtra_roundtrip t.extra hnd,
    Option.bind]

/-- Deserializing serialized tensors rebuilds the same sorted map. -/
theorem fromJsonTensors_roundtrip :
    ∀ (l acc : List (String × ManifestTensor String)),
      l.Pairwise (fun a b => strLt a.1 b.1 = true) →
      (∀ p ∈ l, (p.2.extra.map Prod.fst).Nodup) →
      (∀ p ∈ acc, ∀ q ∈ l, strLt p.1 q.1 = true) →
      (l.map (fun p => (p.1, toJsonTensor p.2))).foldlM
          (fun acc2 p => (fromJsonTensor p.2).map (fun t => btreeInsert p.1 t acc2)) acc =
        some (acc ++ l)
  | [], acc, _, _, _ => by simp
  | (k, t) :: rest, acc, hsort, hnds, hacc => by
    have hhead : fromJsonTensor (toJsonTensor t) = some t :=
      fromJsonTensor_roundtrip t (hnds (k, t) (List.mem_cons_self _ _))
    have hins : btreeInsert k t acc = acc ++ [(k, t)] :=
      btreeInsert_append k t acc
        (fun p hp => hacc p hp (k, t) (List.mem_cons_self _ _))
    have hsort2 := List.pairwise_cons.mp hsort
    have hacc2 : ∀ p ∈ acc ++ [(k, t)], ∀ q ∈ rest, strLt p.1 q.1 = true := by
      intro p hp q hq
      rcases List.mem_append.mp hp with hp1 | hp2
      · exact hacc p hp1 q (List.mem_cons_of_mem _ hq)
      · rcases List.mem_singleton.mp hp2 with rfl
        exact hsort2.1 q hq
    have ih := fromJsonTensors_roundtrip rest (acc ++ [(k, t)]) hsort2.2
      (fun p hp => hnds p (List.mem_cons_of_mem _ hp)) hacc2
    simp only [List.map_cons, List.foldlM_cons, hhead]
    simp only [Option.map_some', Option.bind_eq_bind, Option.some_bind, hins]
    rw [ih]
    simp

/-- C5: deserializing the serialization of a well-formed manifest yields the
same manifest, and re-serializing the parse result yields byte-identical
output. -/
theorem c5_serialization_roundtrip (m : VektManifest String) (hw : WfManifest m) :
    fromJsonManifest (toJsonManifest m) = some m ∧
    (fromJsonManifest (toJsonManifest m)).map serializeManifest =
      some (serializeManifest m) := by
  have htens : fromJsonTensors (Json.obj (m.tensors.map (fun p => (p.1, toJsonTensor p.2)))) =
      some m.tensors := by
    simp only [fromJsonTensors]
    rw [fromJsonTensors_roundtrip m.tensors [] hw.1 hw.2 (by simp)]
    simp
  have hfirst : fromJsonManifest (toJsonManifest m) = some m := by
    simp only [toJsonManifest, fromJsonManifest, lookupAssoc]
    simp only [reduceIte]
    simp only [Option.bind_some, Option.some_bind, htens, parseStr, parseNat_jsonNat]
    rfl
  exact ⟨hfirst, by rw [hfirst]; rfl⟩

/-- Witness for C5 at the concrete manifest `mw5`. -/
theorem c5_serialization_roundtrip_witness :
    WfManifest mw5 ∧
    (fromJsonManifest (toJsonManifest mw5) = some mw5 ∧
     (fromJsonManifest (toJsonManifest mw5)).map serializeManifest =
       some (serializeManifest mw5)) :=
  ⟨⟨by decide, by decide⟩, c5_serialization_roundtrip mw5 ⟨by decide, by decide⟩⟩

/-- C6 (amended): serialization emits the tensors map in ascending
(byte-lexicographic) name order and each tensor object's fields in the fixed
order `shape`, `dtype`, `hash`, `index`, `extra`, where the entries of the
tensor's extra map appear under the nested key `extra` (not spliced inline),
preserving their original insertion order. -/
theorem c6_amended_serialization (m : VektManifest String) (hw : WfManifest m) :
    toJsonManifest m =
      Json.obj [("tensors", Json.obj (m.tensors.map (fun p => (p.1, toJsonTensor p.2)))),
                ("version", Json.str m.version), ("total_size", jsonNat m.totalSize)] ∧
    ((m.tensors.map (fun p => (p.1, toJsonTensor p.2))).map Prod.fst).Pairwise
      (fun a b => strLt a b = true) ∧
    ∀ p ∈ m.tensors, toJsonTensor p.2 =
      Json.obj [("shape", Json.arr (p.2.shape.map jsonNat)), ("dtype", Json.str p.2.dtype),
                ("hash", Json.str p.2.hash), ("index", jsonNat p.2.index),
                ("extra", Json.obj p.2.extra)] := by
  refine ⟨rfl, ?_, fun p _ => rfl⟩
  rw [List.map_map, List.pairwise_map]
  exact hw.1

/-- Witness for the amended C6 at the concrete manifest `mw5`. -/
theorem c6_amended_serialization_witness :
    WfManifest mw5 ∧
    (toJsonManifest mw5 =
      Json.obj [("tensors", Json.obj (mw5.tensors.map (fun p => (p.1, toJsonTensor p.2)))),
                ("version", Json.str mw5.version), ("total_size", jsonNat mw5.totalSize)] ∧
     ((mw5.tensors.map (fun p => (p.1, toJsonTensor p.2))).map Prod.fst).Pairwise
       (fun a b => strLt a b = true) ∧
     ∀ p ∈ mw5.tensors, toJsonTensor p.2 =
       Json.obj [("shape", Json.arr (p.2.shape.map jsonNat)), ("dtype", Json.str p.2.dtype),
                 ("hash", Json.str p.2.hash), ("index", jsonNat p.2.index),
                 ("extra", Json.obj p.2.extra)]) :=
  ⟨⟨by decide, by decide⟩, c6_amended_serialization mw5 ⟨by decide, by decide⟩⟩

/-- Counterexample for C6 as stated: in the serialization of `mct6`, the
extra key `quantization` is not a sibling of `shape`/`dtype`/`hash`/`index`;
it sits under a nested `extra` key. -/
theorem c6_counterexample :
    manifestTensorObj (toJsonManifest mct6) ("t") =
      some (Json.obj [("shape", Json.arr [jsonNat 1]), ("dtype", Json.str ("U8")),
        ("hash", Json.str ("aa11")), ("index", jsonNat 0),
        ("extra", Json.obj [("quantization", Json.str ("int8"))])]) ∧
    (lookupAssoc [("shape", Json.arr [jsonNat 1]), ("dtype", Json.str ("U8")),
        ("hash", Json.str ("aa11")), ("index", jsonNat 0),
        ("extra", Json.obj [("quantization", Json.str ("int8"))])] ("quantization")) = none ∧
    (lookupAssoc [("shape", Json.arr [jsonNat 1]), ("dtype", Json.str ("U8")),
        ("hash", Json.str ("aa11")), ("index", jsonNat 0),
        ("extra", Json.obj [("quantization", Json.str ("int8"))])] ("extra")) =
      some (Json.obj [("quantization", Json.str ("int8"))]) :=
  ⟨rfl, rfl, rfl⟩

/-! ## Byte-level helper lemmas -/

theorem listSlice_append_of_le (xs ys : List Nat) (s e : Nat) (hs : s ≤ e)
    (he : e ≤ xs.length) : listSlice (xs ++ ys) s e = listSlice xs s e := by
  have hsle : s ≤ xs.length := le_trans hs he
  simp only [listSlice, List.drop_append_eq_append_drop, Nat.sub_eq_zero_of_le hsle,
    List.drop_zero]
  rw [List.take_append_eq_append_take, List.length_drop,
    Nat.sub_eq_zero_of_le (Nat.sub_le_sub_right he s)]
  simp

theorem listSlice_exact (pre b suf : List Nat) :
    listSlice (pre ++ (b ++ suf)) pre.length (pre.length + b.length) = b := by
  simp only [listSlice, Nat.add_sub_cancel_left]
  rw [List.drop_left, List.take_left]

theorem chunksBytes_cons (c : Nat × α × List Nat) (rest : List (Nat × α × List Nat)) :
    chunksBytes (c :: rest) = chunkBytes c ++ chunksBytes rest := by
  simp [chunksBytes]

theorem chunksBytes_nil : chunksBytes ([] : List (Nat × α × List Nat)) = [] := rfl

/-- Bytes of the data section outside every chunk's blob region are zero
(they are alignment padding). -/
theorem chunksBytes_zero_outside :
    ∀ (chunks : List (Nat × α × List Nat)) (pos q : Nat) (hpos : pos ≤ q)
      (hq : q - pos < (chunksBytes chunks).length),
      (∀ r ∈ chunkRegions pos chunks, q < r.1 ∨ r.2 ≤ q) →
      (chunksBytes chunks).get ⟨q - pos, hq⟩ = 0
  | [], pos, q, _, hq, _ => absurd hq (by simp [chunksBytes])
  | (pad, h, b) :: rest, pos, q, hpos, hq, hreg => by
    have hqlen := hq
    rw [chunksBytes_cons] at hqlen
    simp only [List.length_append, chunkBytes, List.length_replicate] at hqlen
    have hhead := hreg (pos + pad, pos + pad + b.length)
      (by simp [chunkRegions])
    have hget : (chunksBytes ((pad, h, b) :: rest)).get ⟨q - pos, hq⟩ =
        (chunkBytes (pad, h, b) ++ chunksBytes rest).get
          ⟨q - pos, by rw [← chunksBytes_cons]; exact hq⟩ :=
      List.get_of_eq (chunksBytes_cons _ _) ⟨q - pos, hq⟩
    rw [hget]
    by_cases h1 : q < pos + pad
    · have hidx : q - pos < (chunkBytes (pad, h, b)).length := by
        simp only [chunkBytes, List.length_append, List.length_replicate]
        omega
      rw [List.get_append _ hidx]
      have hidx2 : q - pos < (List.replicate pad (0 : Nat)).length := by
        simp only [List.length_replicate]; omega
      have hget2 : (chunkBytes (pad, h, b)).get ⟨q - pos, hidx⟩ =
          (List.replicate pad (0 : Nat) ++ b).get ⟨q - pos, by simpa [chunkBytes] using hidx⟩ :=
        rfl
      rw [hget2, List.get_append _ hidx2]
      exact List.get_replicate _ _
    · rcases hhead with h2 | h2
      · omega
      · have hlenc : (chunkBytes (pad, h, b)).length = pad + b.length := by
          simp [chunkBytes]
        have hge : (chunkBytes (pad, h, b)).length ≤ q - pos := by omega
        rw [List.get_append_right _ _ (by omega)]
        have hrec := chunksBytes_zero_outside rest (pos + pad + b.length) q (by omega)
          (by omega)
          (fun r hr => hreg r (by simp [chunkRegions, hr]))
        have : q - pos - (chunkBytes (pad, h, b)).length = q - (pos + pad + b.length) := by
          omega
        simp only [this]
        convert hrec using 2
        omega

/-! ## The two-pass synchronization lemma -/

theorem writtenTensors_cons_mem [DecidableEq α] (n : String) (t : ManifestTensor α)
    (rest : List (String × ManifestTensor α)) (seen : List α) (h : t.hash ∈ seen) :
    writtenTensors ((n, t) :: rest) seen = writtenTensors rest seen := by
  simp [writtenTensors, h]

theorem writtenTensors_cons_new [DecidableEq α] (n : String) (t : ManifestTensor α)
    (rest : List (String × ManifestTensor α)) (seen : List α) (h : t.hash ∉ seen) :
    writtenTensors ((n, t) :: rest) seen = (n, t) :: writtenTensors rest (t.hash :: seen) := by
  simp [writtenTensors, h]

theorem pass2_cons_mem [DecidableEq α] (store : List (α × List Nat)) (n : String)
    (t : ManifestTensor α) (rest : List (String × ManifestTensor α)) (pos : Nat) (w2 : List α)
    (h : t.hash ∈ w2) :
    restorePass2 store ((n, t) :: rest) pos w2 = restorePass2 store rest pos w2 := by
  simp [restorePass2, h]

theorem pass2_cons_new [DecidableEq α] (store : List (α × List Nat)) (n : String)
    (t : ManifestTensor α) (rest : List (String × ManifestTensor α)) (pos : Nat) (w2 : List α)
    (b : List Nat) (h : t.hash ∉ w2) (hb : lookupAssoc store t.hash = some b) :
    restorePass2 store ((n, t) :: rest) pos w2 =
      (restorePass2 store rest (pos + (8 - pos % 8) % 8 + b.length) (t.hash :: w2)).map
        (fun chunks => ((8 - pos % 8) % 8, t.hash, b) :: chunks) := by
  simp [restorePass2, h, hb]

/-! ## Claim C4: shared-hash deduplication -/

/-- Pass 1 preserves the tensor names in order. -/
theorem pass1_names_eq [DecidableEq α] :
    ∀ (ts : List (String × ManifestTensor α)) (off : Nat) (w1 : List (α × (Nat × Nat))),
      (restorePass1 ts off w1).1.map Prod.fst = ts.map Prod.fst
  | [], _, _ => rfl
  | (name, t) :: rest, off, w1 => by
    rcases hl : lookupAssoc w1 t.hash with _ | se
    · simp only [restorePass1, hl, List.map_cons]
      rw [pass1_names_eq rest]
    · simp only [restorePass1, hl, List.map_cons]
      rw [pass1_names_eq rest]

theorem pass1_length [DecidableEq α] (ts : List (String × ManifestTensor α)) (off : Nat)
    (w1 : List (α × (Nat × Nat))) : (restorePass1 ts off w1).1.length = ts.length := by
  have h := congrArg List.length (pass1_names_eq ts off w1)
  simpa using h

/-- The name at a position of pass 1's header equals the tensor name there. -/
theorem pass1_name_at [DecidableEq α] (ts : List (String × ManifestTensor α)) (off : Nat)
    (w1 : List (α × (Nat × Nat))) (k : Nat) (hk : k < ts.length)
    (hh : k < (restorePass1 ts off w1).1.length) :
    ((restorePass1 ts off w1).1.get ⟨k, hh⟩).1 = (ts.get ⟨k, hk⟩).1 := by
  have hmap := pass1_names_eq ts off w1
  have h1 := List.get_of_eq hmap ⟨k, by simpa using hh⟩
  simpa using h1

/-- One unfolding step of pass 1 when the hash was already seen. -/
theorem pass1_cons_some [DecidableEq α] (name : String) (t : ManifestTensor α)
    (rest : List (String × ManifestTensor α)) (off : Nat) (w1 : List (α × (Nat × Nat)))
    (se : Nat × Nat) (hl : lookupAssoc w1 t.hash = some se) :
    restorePass1 ((name, t) :: rest) off w1 =
      ((name, ⟨t.shape, t.dtype, se, t.extra⟩) :: (restorePass1 rest off w1).1,
       (restorePass1 rest off w1).2) := by
  simp [restorePass1, hl]

/-- One unfolding step of pass 1 when the hash is new. -/
theorem pass1_cons_none [DecidableEq α] (name : String) (t : ManifestTensor α)
    (rest : List (String × ManifestTensor α)) (off : Nat) (w1 : List (α × (Nat × Nat)))
    (hl : lookupAssoc w1 t.hash = none) :
    restorePass1 ((name, t) :: rest) off w1 =
      ((name, ⟨t.shape, t.dtype, (off + (8 - off % 8) % 8,
          off + (8 - off % 8) % 8 + t.shape.prod * getDtypeSize t.dtype), t.extra⟩) ::
        (restorePass1 rest (off + (8 - off % 8) % 8 + t.shape.prod * getDtypeSize t.dtype)
          ((t.hash, (off + (8 - off % 8) % 8,
            off + (8 - off % 8) % 8 + t.shape.prod * getDtypeSize t.dtype)) :: w1)).1,
       (restorePass1 rest (off + (8 - off % 8) % 8 + t.shape.prod * getDtypeSize t.dtype)
          ((t.hash, (off + (8 - off % 8) % 8,
            off + (8 - off % 8) % 8 + t.shape.prod * getDtypeSize t.dtype)) :: w1)).2) := by
  simp [restorePass1, hl]

/-- Pass 1's offset cursor never decreases. -/
theorem pass1_offset_mono [DecidableEq α] :
    ∀ (ts : List (String × ManifestTensor α)) (off : Nat) (w1 : List (α × (Nat × Nat))),
      off ≤ (restorePass1 ts off w1).2
  | [], _, _ => le_refl _
  | (name, t) :: rest, off, w1 => by
    rcases hl : lookupAssoc w1 t.hash with _ | se
    · rw [pass1_cons_none name t rest off w1 hl]
      exact le_trans (by omega) (pass1_offset_mono rest _ _)
    · rw [pass1_cons_some name t rest off w1 se hl]
      exact pass1_offset_mono rest off w1

/-- A hash already recorded in pass 1's seen map keeps its recorded offsets:
every later tensor with that hash is emitted aliased to them. -/
theorem pass1_lookup_stable [DecidableEq α] :
    ∀ (ts : List (String × ManifestTensor α)) (off : Nat) (w1 : List (α × (Nat × Nat)))
      (h : α) (se : Nat × Nat), lookupAssoc w1 h = some se →
      ∀ (k : Nat) (hk : k < ts.length) (hk2 : k < (restorePass1 ts off w1).1.length),
        (ts.get ⟨k, hk⟩).2.hash = h →
        ((restorePass1 ts off w1).1.get ⟨k, hk2⟩).2.dataOffsets = se
  | [], _, _, _, _, _, k, hk, _, _ => absurd hk (by simp)
  | (name, t) :: rest, off, w1, h, se, hse, k, hk, hk2, hhash => by
    rcases hl : lookupAssoc w1 t.hash with _ | se2
    · match k with
      | 0 =>
        exfalso
        simp only [List.get] at hhash
        rw [hhash] at hl
        rw [hse] at hl
        exact Option.noConfusion hl
      | k + 1 =>
        have hne : h ≠ t.hash := by
          intro heq; rw [heq, hl] at hse; exact Option.noConfusion hse
        have hse2 : lookupAssoc ((t.hash, (off + (8 - off % 8) % 8,
            off + (8 - off % 8) % 8 + t.shape.prod * getDtypeSize t.dtype)) :: w1) h = some se := by
          simp only [lookupAssoc, if_neg hne]
          exact hse
        have hk2r : k < (restorePass1 rest (off + (8 - off % 8) % 8 +
            t.shape.prod * getDtypeSize t.dtype) ((t.hash, (off + (8 - off % 8) % 8,
            off + (8 - off % 8) % 8 + t.shape.prod * getDtypeSize t.dtype)) :: w1)).1.length := by
          rw [pass1_length]
          exact Nat.lt_of_succ_lt_succ hk
        have := pass1_lookup_stable rest _ _ h se hse2 k (Nat.lt_of_succ_lt_succ hk) hk2r
          (by simpa using hhash)
        simpa [restorePass1, hl] using this
    · match k with
      | 0 =>
        have : se2 = se := by
          simp only [List.get] at hhash
          rw [hhash] at hl
          rw [hse] at hl
          exact (Option.some.inj hl).symm
        subst this
        simp [restorePass1, hl]
      | k + 1 =>
        have hk2r : k < (restorePass1 rest off w1).1.length := by
          rw [pass1_length]
          exact Nat.lt_of_succ_lt_succ hk
        have := pass1_lookup_stable rest off w1 h se hse k (Nat.lt_of_succ_lt_succ hk) hk2r
          (by simpa using hhash)
        simpa [restorePass1, hl] using this

/-- Pass 1 assigns identical offsets to tensors with identical hashes. -/
theorem pass1_offsets_agree [DecidableEq α] :
    ∀ (ts : List (String × ManifestTensor α)) (off : Nat) (w1 : List (α × (Nat × Nat)))
      (k1 k2 : Nat) (hk1 : k1 < ts.length) (hk2 : k2 < ts.length)
      (hh1 : k1 < (restorePass1 ts off w1).1.length)
      (hh2 : k2 < (restorePass1 ts off w1).1.length),
      (ts.get ⟨k1, hk1⟩).2.hash = (ts.get ⟨k2, hk2⟩).2.hash →
      ((restorePass1 ts off w1).1.get ⟨k1, hh1⟩).2.dataOffsets =
        ((restorePass1 ts off w1).1.get ⟨k2, hh2⟩).2.dataOffsets
  | [], _, _, k1, _, hk1, _, _, _, _ => absurd hk1 (by simp)
  | (name, t) :: rest, off, w1, 0, 0, _, _, _, _, _ => rfl
  | (name, t) :: rest, off, w1, 0, k2 + 1, hk1, hk2, hh1, hh2, hhash => by
    rcases hl : lookupAssoc w1 t.hash with _ | se
    · have hse : lookupAssoc ((t.hash, (off + (8 - off % 8) % 8,
          off + (8 - off % 8) % 8 + t.shape.prod * getDtypeSize t.dtype)) :: w1) t.hash =
          some (off + (8 - off % 8) % 8,
            off + (8 - off % 8) % 8 + t.shape.prod * getDtypeSize t.dtype) := by
        simp [lookupAssoc]
      have hk2r : k2 < (restorePass1 rest (off + (8 - off % 8) % 8 +
          t.shape.prod * getDtypeSize t.dtype) ((t.hash, (off + (8 - off % 8) % 8,
          off + (8 - off % 8) % 8 + t.shape.prod * getDtypeSize t.dtype)) :: w1)).1.length := by
        rw [pass1_length]
        exact Nat.lt_of_succ_lt_succ hk2
      have hres := pass1_lookup_stable rest _ _ t.hash _ hse k2 (Nat.lt_of_succ_lt_succ hk2) hk2r
        (by simpa using hhash.symm)
      have hunf := congrArg Prod.fst (pass1_cons_none name t rest off w1 hl)
      rw [List.get_of_eq hunf ⟨0, hh1⟩, List.get_of_eq hunf ⟨k2 + 1, hh2⟩]
      exact hres.symm
    · have hk2r : k2 < (restorePass1 rest off w1).1.length := by
        rw [pass1_length]
        exact Nat.lt_of_succ_lt_succ hk2
      have hres := pass1_lookup_stable rest off w1 t.hash se hl k2 (Nat.lt_of_succ_lt_succ hk2) hk2r
        (by simpa using hhash.symm)
      have hunf := congrArg Prod.fst (pass1_cons_some name t rest off w1 se hl)
      rw [List.get_of_eq hunf ⟨0, hh1⟩, List.get_of_eq hunf ⟨k2 + 1, hh2⟩]
      exact hres.symm
  | (name, t) :: rest, off, w1, k1 + 1, 0, hk1, hk2, hh1, hh2, hhash =>
    (pass1_offsets_agree ((name, t) :: rest) off w1 0 (k1 + 1) hk2 hk1 hh2 hh1 hhash.symm).symm
  | (name, t) :: rest, off, w1, k1 + 1, k2 + 1, hk1, hk2, hh1, hh2, hhash => by
    rcases hl : lookupAssoc w1 t.hash with _ | se
    · have hr1 : k1 < (restorePass1 rest (off + (8 - off % 8) % 8 +
          t.shape.prod * getDtypeSize t.dtype) ((t.hash, (off + (8 - off % 8) % 8,
          off + (8 - off % 8) % 8 + t.shape.prod * getDtypeSize t.dtype)) :: w1)).1.length := by
        rw [pass1_length]; exact Nat.lt_of_succ_lt_succ hk1
      have hr2 : k2 < (restorePass1 rest (off + (8 - off % 8) % 8 +
          t.shape.prod * getDtypeSize t.dtype) ((t.hash, (off + (8 - off % 8) % 8,
          off + (8 - off % 8) % 8 + t.shape.prod * getDtypeSize t.dtype)) :: w1)).1.length := by
        rw [pass1_length]; exact Nat.lt_of_succ_lt_succ hk2
      have hres := pass1_offsets_agree rest _ _ k1 k2 (Nat.lt_of_succ_lt_succ hk1)
        (Nat.lt_of_succ_lt_succ hk2) hr1 hr2 (by simpa using hhash)
      have hunf := congrArg Prod.fst (pass1_cons_none name t rest off w1 hl)
      rw [List.get_of_eq hunf ⟨k1 + 1, hh1⟩, List.get_of_eq hunf ⟨k2 + 1, hh2⟩]
      exact hres
    · have hr1 : k1 < (restorePass1 rest off w1).1.length := by
        rw [pass1_length]; exact Nat.lt_of_succ_lt_succ hk1
      have hr2 : k2 < (restorePass1 rest off w1).1.length := by
        rw [pass1_length]; exact Nat.lt_of_succ_lt_succ hk2
      have hres := pass1_offsets_agree rest off w1 k1 k2 (Nat.lt_of_succ_lt_succ hk1)
        (Nat.lt_of_succ_lt_succ hk2) hr1 hr2 (by simpa using hhash)
      have hunf := congrArg Prod.fst (pass1_cons_some name t rest off w1 se hl)
      rw [List.get_of_eq hunf ⟨k1 + 1, hh1⟩, List.get_of_eq hunf ⟨k2 + 1, hh2⟩]
      exact hres

/-- Looking up the name at a position of a duplicate-free association list
yields the value at that position. -/
theorem lookupAssoc_get_of_nodup [DecidableEq κ] :
    ∀ (l : List (κ × β)) (k : Nat) (hk : k < l.length),
      (l.map Prod.fst).Nodup →
      lookupAssoc l ((l.get ⟨k, hk⟩).1) = some ((l.get ⟨k, hk⟩).2)
  | [], k, hk, _ => absurd hk (by simp)
  | (k0, v0) :: rest, 0, _, _ => by simp [lookupAssoc]
  | (k0, v0) :: rest, k + 1, hk, hnd => by
    have hnd2 : k0 ∉ rest.map Prod.fst ∧ (rest.map Prod.fst).Nodup := by
      rw [List.map_cons, List.nodup_cons] at hnd
      exact hnd
    have hk' : k < rest.length := Nat.lt_of_succ_lt_succ hk
    have hmem : (rest.get ⟨k, hk'⟩) ∈ rest := List.get_mem rest k hk'
    have hne : (rest.get ⟨k, hk'⟩).1 ≠ k0 := by
      intro heq
      exact hnd2.1 (heq ▸ List.mem_map_of_mem Prod.fst hmem)
    simp only [List.get_cons_succ, lookupAssoc, if_neg hne]
    exact lookupAssoc_get_of_nodup rest k hk' hnd2.2

/-- Membership in the filtered, sorted restore list. -/
theorem mem_includedSorted [DecidableEq α] (m : VektManifest α) (filter : Option String)
    (p : String × ManifestTensor α) :
    p ∈ includedSorted m filter ↔ p ∈ m.tensors ∧ includeName filter p.1 = true := by
  rw [includedSorted, sortByIndex, (List.perm_insertionSort _ _).mem_iff]
  simp [List.mem_filter]

theorem nodup_includedSorted_names [DecidableEq α] (m : VektManifest α) (filter : Option String)
    (h : (m.tensors.map Prod.fst).Nodup) :
    ((includedSorted m filter).map Prod.fst).Nodup := by
  have hfil : ((m.tensors.filter (fun p => includeName filter p.1)).map Prod.fst).Nodup :=
    h.sublist ((List.filter_sublist _).map Prod.fst)
  have hperm := (List.perm_insertionSort (fun a b => a.2.index ≤ b.2.index)
    (m.tensors.filter (fun p => includeName filter p.1))).map Prod.fst
  exact hperm.nodup_iff.mpr hfil

/-- Pass 2 copies each needed blob exactly once: the write log contains a
hash once if some tensor carries it (and it was not yet written), else not
at all. -/
theorem pass2_count [DecidableEq α] (store : List (α × List Nat)) :
    ∀ (ts : List (String × ManifestTensor α)) (pos : Nat) (w2 : List α)
      (chunks : List (Nat × α × List Nat)) (h : α),
      restorePass2 store ts pos w2 = .ok chunks →
      (h ∈ w2 → (chunks.map (fun c => c.2.1)).count h = 0) ∧
      (h ∉ w2 → ((∃ p ∈ ts, p.2.hash = h) → (chunks.map (fun c => c.2.1)).count h = 1) ∧
        ((∀ p ∈ ts, p.2.hash ≠ h) → (chunks.map (fun c => c.2.1)).count h = 0))
  | [], pos, w2, chunks, h, hok => by
    have : chunks = [] := by
      simpa [restorePass2] using hok.symm
    subst this
    refine ⟨fun _ => by simp, fun _ => ⟨fun hex => ?_, fun _ => by simp⟩⟩
    obtain ⟨p, hp, _⟩ := hex
    exact absurd hp (by simp)
  | (name, t) :: rest, pos, w2, chunks, h, hok => by
    by_cases hmem : t.hash ∈ w2
    · have hok2 : restorePass2 store rest pos w2 = .ok chunks := by
        simpa [restorePass2, hmem] using hok
      obtain ⟨ih1, ih2⟩ := pass2_count store rest pos w2 chunks h hok2
      refine ⟨ih1, fun hnm => ⟨fun hex => ?_, fun hall => (ih2 hnm).2
        (fun p hp => hall p (List.mem_cons_of_mem _ hp))⟩⟩
      obtain ⟨p, hp, hph⟩ := hex
      rcases List.mem_cons.mp hp with rfl | hp2
      · exact absurd (hph ▸ hmem) hnm
      · exact (ih2 hnm).1 ⟨p, hp2, hph⟩
    · rcases hlook : lookupAssoc store t.hash with _ | b
      · exfalso
        have : (Except.error (VektError.io ("No such file or directory (os error 2)")) :
            Except (VektError α) (List (Nat × α × List Nat))) = .ok chunks := by
          simpa [restorePass2, hmem, hlook] using hok
        exact Except.noConfusion this
      · have hok2 : (restorePass2 store rest (pos + (8 - pos % 8) % 8 + b.length)
            (t.hash :: w2)).map
            (fun cs => ((8 - pos % 8) % 8, t.hash, b) :: cs) = .ok chunks := by
          simpa [restorePass2, hmem, hlook] using hok
        rcases hrec : restorePass2 store rest (pos + (8 - pos % 8) % 8 + b.length)
            (t.hash :: w2) with e | cs
        · rw [hrec] at hok2
          exact Except.noConfusion hok2
        · rw [hrec] at hok2
          have hchunks : chunks = ((8 - pos % 8) % 8, t.hash, b) :: cs :=
            (Except.ok.inj hok2).symm
          subst hchunks
          obtain ⟨ih1, ih2⟩ := pass2_count store rest _ (t.hash :: w2) cs h hrec
          constructor
          · intro hw
            have hne : h ≠ t.hash := fun heq => hmem (heq ▸ hw)
            simp only [List.map_cons, List.count_cons]
            rw [ih1 (List.mem_cons_of_mem _ hw)]
            simp [hne.symm]
          · intro hnw
            constructor
            · intro hex
              by_cases heq : h = t.hash
              · subst heq
                simp only [List.map_cons, List.count_cons]
                rw [ih1 (List.mem_cons_self _ _)]
                simp
              · have : ∃ p ∈ rest, p.2.hash = h := by
                  obtain ⟨p, hp, hph⟩ := hex
                  rcases List.mem_cons.mp hp with rfl | hp2
                  · exact absurd hph.symm heq
                  · exact ⟨p, hp2, hph⟩
                have hcount := (ih2 (by
                  intro hc
                  rcases List.mem_cons.mp hc with hc1 | hc2
                  · exact heq hc1
                  · exact hnw hc2)).1 this
                have hne2 : ¬ t.hash = h := fun hcc => heq hcc.symm
                simp only [List.map_cons, List.count_cons]
                rw [hcount]
                simp [hne2]
            · intro hall
              have hne : h ≠ t.hash := fun heq2 =>
                (hall (name, t) (List.mem_cons_self _ _)) heq2.symm
              have hne2 : ¬ t.hash = h := fun hcc => hne hcc.symm
              have hcount := (ih2 (by
                intro hc
                rcases List.mem_cons.mp hc with hc1 | hc2
                · exact hne hc1
                · exact hnw hc2)).2 (fun p hp => hall p (List.mem_cons_of_mem _ hp))
              simp only [List.map_cons, List.count_cons]
              rw [hcount]
              simp [hne2]

/-- C4: if two tensors of a manifest share a hash and both are included,
restore emits header entries with identical `data_offsets` for them, and the
shared payload is copied to the output exactly once. -/
theorem c4_shared_hash_dedup [DecidableEq α] (m : VektManifest α)
    (store : List (α × List Nat)) (filter : Option String) (out : RestoreOutput α)
    (na nb : String) (ta tb : ManifestTensor α)
    (hnodup : (m.tensors.map Prod.fst).Nodup)
    (hina : (na, ta) ∈ m.tensors) (hinb : (nb, tb) ∈ m.tensors)
    (hfa : includeName filter na = true) (hfb : includeName filter nb = true)
    (hhash : ta.hash = tb.hash)
    (hres : restore m store filter = .ok out) :
    (∃ ma mb, lookupAssoc out.headerEntries na = some ma ∧
      lookupAssoc out.headerEntries nb = some mb ∧ ma.dataOffsets = mb.dataOffsets) ∧
    out.writes.count ta.hash = 1 := by
  rcases hp2 : restorePass2 store (includedSorted m filter) 0 [] with e | chunks
  · rw [restore, hp2] at hres
    exact Except.noConfusion hres
  · rw [restore, hp2] at hres
    have hout : out = ⟨(restorePass1 (includedSorted m filter) 0 []).1, chunksBytes chunks,
        chunks.map (fun c => c.2.1)⟩ := (Except.ok.inj hres).symm
    subst hout
    have hmema : (na, ta) ∈ includedSorted m filter :=
      (mem_includedSorted m filter (na, ta)).mpr ⟨hina, hfa⟩
    have hmemb : (nb, tb) ∈ includedSorted m filter :=
      (mem_includedSorted m filter (nb, tb)).mpr ⟨hinb, hfb⟩
    obtain ⟨⟨ka, hka⟩, hgeta⟩ := List.mem_iff_get.mp hmema
    obtain ⟨⟨kb, hkb⟩, hgetb⟩ := List.mem_iff_get.mp hmemb
    have hha : ka < (restorePass1 (includedSorted m filter) 0 []).1.length := by
      rw [pass1_length]; exact hka
    have hhb : kb < (restorePass1 (includedSorted m filter) 0 []).1.length := by
      rw [pass1_length]; exact hkb
    have hnd : ((restorePass1 (includedSorted m filter) 0 []).1.map Prod.fst).Nodup := by
      rw [pass1_names_eq]
      exact nodup_includedSorted_names m filter hnodup
    have hnamea : ((restorePass1 (includedSorted m filter) 0 []).1.get ⟨ka, hha⟩).1 = na := by
      rw [pass1_name_at (includedSorted m filter) 0 [] ka hka hha, hgeta]
    have hnameb : ((restorePass1 (includedSorted m filter) 0 []).1.get ⟨kb, hhb⟩).1 = nb := by
      rw [pass1_name_at (includedSorted m filter) 0 [] kb hkb hhb, hgetb]
    have hoffs := pass1_offsets_agree (includedSorted m filter) 0 [] ka kb hka hkb hha hhb
      (by rw [hgeta, hgetb]; exact hhash)
    have hla := lookupAssoc_get_of_nodup (restorePass1 (includedSorted m filter) 0 []).1 ka hha hnd
    have hlb := lookupAssoc_get_of_nodup (restorePass1 (includedSorted m filter) 0 []).1 kb hhb hnd
    rw [hnamea] at hla
    rw [hnameb] at hlb
    refine ⟨⟨_, _, hla, hlb, hoffs⟩, ?_⟩
    have hcnt := pass2_count store (includedSorted m filter) 0 [] chunks ta.hash hp2
    exact (hcnt.2 (by simp)).1 ⟨(na, ta), hmema, rfl⟩

/-! ## The core synchronization of restore's two passes -/

theorem pad_align (n : Nat) : (n + (8 - n % 8) % 8) % 8 = 0 := by omega

/-- Writing a fresh blob extends the synchronized state: the new 8-aligned
range holds exactly the blob's bytes and all old ranges are unchanged. -/
theorem goodState_extend [DecidableEq α] (store : List (α × List Nat)) (pre : List Nat)
    (w1 : List (α × (Nat × Nat))) (w2 : List α) (t : ManifestTensor α) (b : List Nat)
    (hgs : GoodState store pre w1 w2)
    (hb : lookupAssoc store t.hash = some b)
    (hblen : b.length = t.shape.prod * getDtypeSize t.dtype) :
    GoodState store (pre ++ (List.replicate ((8 - pre.length % 8) % 8) 0 ++ b))
      ((t.hash, (pre.length + (8 - pre.length % 8) % 8,
        pre.length + (8 - pre.length % 8) % 8 + t.shape.prod * getDtypeSize t.dtype)) :: w1)
      (t.hash :: w2) := by
  have hpre'len : (pre ++ (List.replicate ((8 - pre.length % 8) % 8) 0 ++ b)).length =
      pre.length + (8 - pre.length % 8) % 8 + t.shape.prod * getDtypeSize t.dtype := by
    simp only [List.length_append, List.length_replicate]
    omega
  constructor
  · intro h2 se2 hse2
    by_cases hcase : h2 = t.hash
    · subst hcase
      simp only [lookupAssoc, if_pos rfl] at hse2
      rcases Option.some.inj hse2 with rfl
      refine ⟨List.mem_cons_self _ _, pad_align pre.length, b, hb, by omega, le_of_eq (by omega), ?_⟩
      have hshape : pre ++ (List.replicate ((8 - pre.length % 8) % 8) 0 ++ b) =
          (pre ++ List.replicate ((8 - pre.length % 8) % 8) 0) ++ (b ++ []) := by
        simp [List.append_assoc]
      rw [hshape]
      have hfin := listSlice_exact (pre ++ List.replicate ((8 - pre.length % 8) % 8) 0) b []
      convert hfin using 2
      · simp only [List.length_append, List.length_replicate]
      · simp only [List.length_append, List.length_replicate]
        omega
    · simp only [lookupAssoc, if_neg hcase] at hse2
      obtain ⟨hmem, halign, b2, hb2, hend, hle, hslice⟩ := hgs.1 h2 se2 hse2
      refine ⟨List.mem_cons_of_mem _ hmem, halign, b2, hb2, hend, ?_, ?_⟩
      · rw [hpre'len]
        omega
      · rw [listSlice_append_of_le pre _ se2.1 se2.2 (by omega) hle]
        exact hslice
  · intro h2 hm2
    by_cases hcase : h2 = t.hash
    · subst hcase
      exact ⟨(pre.length + (8 - pre.length % 8) % 8,
        pre.length + (8 - pre.length % 8) % 8 + t.shape.prod * getDtypeSize t.dtype),
        by simp [lookupAssoc]⟩
    · rcases List.mem_cons.mp hm2 with heq | hm3
      · exact absurd heq hcase
      · obtain ⟨se, hse⟩ := hgs.2 h2 hm3
        exact ⟨se, by simp only [lookupAssoc, if_neg hcase]; exact hse⟩

/-- The forward core lemma: starting from synchronized pass-1/pass-2 states
over already-emitted data `pre`, if every tensor's blob is present and every
blob about to be written has the length pass 1 assumes, then pass 2 succeeds
and the emitted data realises pass 1's header: the final cursor is the data
length, every chunk's blob region is some header entry's range, all assigned
starts are 8-aligned, and the slice of the data at every entry's range is
exactly the stored blob of that tensor's hash. -/
theorem restore_core [DecidableEq α] (store : List (α × List Nat)) :
    ∀ (ts : List (String × ManifestTensor α)) (pre : List Nat)
      (w1 : List (α × (Nat × Nat))) (w2 : List α),
      GoodState store pre w1 w2 →
      (∀ p ∈ ts, ∃ b, lookupAssoc store p.2.hash = some b) →
      (∀ p ∈ writtenTensors ts w2, ∀ b, lookupAssoc store p.2.hash = some b →
        b.length = sizeBytes p.2) →
      ∃ chunks, restorePass2 store ts pre.length w2 = .ok chunks ∧
        (pre ++ chunksBytes chunks).length = (restorePass1 ts pre.length w1).2 ∧
        (∀ r ∈ chunkRegions pre.length chunks,
          ∃ k, ∃ hh : k < (restorePass1 ts pre.length w1).1.length,
            ((restorePass1 ts pre.length w1).1.get ⟨k, hh⟩).2.dataOffsets = r) ∧
        (∀ (k : Nat) (hh : k < (restorePass1 ts pre.length w1).1.length),
          ((restorePass1 ts pre.length w1).1.get ⟨k, hh⟩).2.dataOffsets.1 % 8 = 0) ∧
        (∀ (k : Nat) (hk : k < ts.length) (hh : k < (restorePass1 ts pre.length w1).1.length),
          ∀ b, lookupAssoc store (ts.get ⟨k, hk⟩).2.hash = some b →
            ((restorePass1 ts pre.length w1).1.get ⟨k, hh⟩).2.dataOffsets.2 =
              ((restorePass1 ts pre.length w1).1.get ⟨k, hh⟩).2.dataOffsets.1 + b.length ∧
            ((restorePass1 ts pre.length w1).1.get ⟨k, hh⟩).2.dataOffsets.2 ≤
              (pre ++ chunksBytes chunks).length ∧
            listSlice (pre ++ chunksBytes chunks)
              ((restorePass1 ts pre.length w1).1.get ⟨k, hh⟩).2.dataOffsets.1
              ((restorePass1 ts pre.length w1).1.get ⟨k, hh⟩).2.dataOffsets.2 = b)
  | [], pre, w1, w2, _, _, _ => by
    refine ⟨[], rfl, by simp [restorePass1, chunksBytes], ?_, ?_, ?_⟩
    · intro r hr
      simp [chunkRegions] at hr
    · intro k hh
      rw [show (restorePass1 ([] : List (String × ManifestTensor α)) pre.length w1).1 = []
        from rfl] at hh
      exact absurd hh (by simp)
    · intro k hk
      exact absurd hk (by simp)
  | (name, t) :: rest, pre, w1, w2, hgs, hpres, hsz => by
    rcases hl : lookupAssoc w1 t.hash with _ | se
    -- fresh hash: pass 1 assigns an aligned range, pass 2 pads and copies
    · have hnmem : t.hash ∉ w2 := by
        intro hw
        obtain ⟨se, hse⟩ := hgs.2 t.hash hw
        rw [hl] at hse
        exact Option.noConfusion hse
      obtain ⟨b, hb⟩ := hpres (name, t) (List.mem_cons_self _ _)
      have hw0 : (name, t) ∈ writtenTensors ((name, t) :: rest) w2 := by
        rw [writtenTensors_cons_new name t rest w2 hnmem]
        exact List.mem_cons_self _ _
      have hblen : b.length = t.shape.prod * getDtypeSize t.dtype := hsz (name, t) hw0 b hb
      have hgs' := goodState_extend store pre w1 w2 t b hgs hb hblen
      have hplen : (pre ++ (List.replicate ((8 - pre.length % 8) % 8) 0 ++ b)).length =
          pre.length + (8 - pre.length % 8) % 8 + t.shape.prod * getDtypeSize t.dtype := by
        simp only [List.length_append, List.length_replicate]
        omega
      have hpres' : ∀ p ∈ rest, ∃ b2, lookupAssoc store p.2.hash = some b2 :=
        fun p hp => hpres p (List.mem_cons_of_mem _ hp)
      have hsz' : ∀ p ∈ writtenTensors rest (t.hash :: w2), ∀ b2,
          lookupAssoc store p.2.hash = some b2 → b2.length = sizeBytes p.2 :=
        fun p hp => hsz p (by
          rw [writtenTensors_cons_new name t rest w2 hnmem]
          exact List.mem_cons_of_mem _ hp)
      obtain ⟨chunks', hok', hlen', hreg', halign', hslice'⟩ :=
        restore_core store rest (pre ++ (List.replicate ((8 - pre.length % 8) % 8) 0 ++ b))
          ((t.hash, (pre.length + (8 - pre.length % 8) % 8,
            pre.length + (8 - pre.length % 8) % 8 + t.shape.prod * getDtypeSize t.dtype)) :: w1)
          (t.hash :: w2) hgs' hpres' hsz'
      rw [hplen] at hok' hlen' hreg' halign' hslice'
      have hunf := pass1_cons_none name t rest pre.length w1 hl
      have hunf1 := congrArg Prod.fst hunf
      have hunf2 := congrArg Prod.snd hunf
      have hdatashape : pre ++ chunksBytes (((8 - pre.length % 8) % 8, t.hash, b) :: chunks') =
          (pre ++ (List.replicate ((8 - pre.length % 8) % 8) 0 ++ b)) ++ chunksBytes chunks' := by
        rw [chunksBytes_cons]
        simp [chunkBytes, List.append_assoc]
      have hlcons : (restorePass1 ((name, t) :: rest) pre.length w1).1.length =
          rest.length + 1 := by
        rw [pass1_length]
        simp
      have hok'' : restorePass2 store rest (pre.length + (8 - pre.length % 8) % 8 + b.length)
          (t.hash :: w2) = .ok chunks' := by
        rw [show pre.length + (8 - pre.length % 8) % 8 + b.length =
          pre.length + (8 - pre.length % 8) % 8 + t.shape.prod * getDtypeSize t.dtype
          from by omega]
        exact hok'
      refine ⟨((8 - pre.length % 8) % 8, t.hash, b) :: chunks', ?_, ?_, ?_, ?_, ?_⟩
      · rw [pass2_cons_new store name t rest pre.length w2 b hnmem hb, hok'']
        rfl
      · rw [hdatashape]
        rw [hunf2]
        exact hlen'
      · intro r hr
        rw [show chunkRegions pre.length (((8 - pre.length % 8) % 8, t.hash, b) :: chunks') =
            (pre.length + (8 - pre.length % 8) % 8,
              pre.length + (8 - pre.length % 8) % 8 + b.length) ::
            chunkRegions (pre.length + (8 - pre.length % 8) % 8 + b.length) chunks'
          from rfl] at hr
        rcases List.mem_cons.mp hr with rfl | hr2
        · refine ⟨0, by rw [hlcons]; omega, ?_⟩
          rw [List.get_of_eq hunf1 ⟨0, by rw [hlcons]; omega⟩]
          exact congrArg (Prod.mk (pre.length + (8 - pre.length % 8) % 8)) (by omega)
        · have hr3 : r ∈ chunkRegions (pre.length + (8 - pre.length % 8) % 8 +
              t.shape.prod * getDtypeSize t.dtype) chunks' := by
            rw [show pre.length + (8 - pre.length % 8) % 8 + t.shape.prod * getDtypeSize t.dtype =
              pre.length + (8 - pre.length % 8) % 8 + b.length from by omega]
            exact hr2
          obtain ⟨k, hh', hoff⟩ := hreg' r hr3
          have hhk : k + 1 < (restorePass1 ((name, t) :: rest) pre.length w1).1.length := by
            rw [hlcons]
            rw [pass1_length] at hh'
            omega
          refine ⟨k + 1, hhk, ?_⟩
          rw [List.get_of_eq hunf1 ⟨k + 1, hhk⟩]
          exact hoff
      · intro k hh
        match k with
        | 0 =>
          rw [List.get_of_eq hunf1 ⟨0, hh⟩]
          exact pad_align pre.length
        | k + 1 =>
          have hh' : k < (restorePass1 rest (pre.length + (8 - pre.length % 8) % 8 +
              t.shape.prod * getDtypeSize t.dtype) ((t.hash, (pre.length +
              (8 - pre.length % 8) % 8, pre.length + (8 - pre.length % 8) % 8 +
              t.shape.prod * getDtypeSize t.dtype)) :: w1)).1.length := by
            rw [pass1_length]
            rw [hlcons] at hh
            omega
          have halr := halign' k hh'
          rw [List.get_of_eq hunf1 ⟨k + 1, hh⟩]
          exact halr
      · intro k hk hh b2 hb2
        match k with
        | 0 =>
          have hbn : lookupAssoc store t.hash = some b := hb
          have hb2' : b2 = b := by
            have h5 : lookupAssoc store t.hash = some b2 := hb2
            rw [hbn] at h5
            exact (Option.some.inj h5).symm
          subst hb2'
          rw [List.get_of_eq hunf1 ⟨0, hh⟩]
          refine ⟨?_, ?_, ?_⟩
          · show pre.length + (8 - pre.length % 8) % 8 + t.shape.prod * getDtypeSize t.dtype =
              pre.length + (8 - pre.length % 8) % 8 + b2.length
            omega
          · show pre.length + (8 - pre.length % 8) % 8 + t.shape.prod * getDtypeSize t.dtype ≤
              (pre ++ chunksBytes (((8 - pre.length % 8) % 8, t.hash, b2) :: chunks')).length
            rw [hdatashape]
            simp only [List.length_append, List.length_replicate]
            omega
          · show listSlice (pre ++ chunksBytes (((8 - pre.length % 8) % 8, t.hash, b2) :: chunks'))
              (pre.length + (8 - pre.length % 8) % 8)
              (pre.length + (8 - pre.length % 8) % 8 + t.shape.prod * getDtypeSize t.dtype) = b2
            obtain ⟨_, _, b3, hb3, hend3, hle3, hslice3⟩ := hgs'.1 t.hash
              (pre.length + (8 - pre.length % 8) % 8,
                pre.length + (8 - pre.length % 8) % 8 + t.shape.prod * getDtypeSize t.dtype)
              (by simp [lookupAssoc])
            have hb3' : b3 = b2 := by
              rw [hbn] at hb3
              exact (Option.some.inj hb3).symm
            subst hb3'
            rw [hdatashape]
            rw [listSlice_append_of_le _ _ _ _ (by omega) (by rw [hplen])]
            exact hslice3
        | k + 1 =>
          have hkr : k < rest.length := by
            simp only [List.length_cons] at hk
            omega
          have hh' : k < (restorePass1 rest (pre.length + (8 - pre.length % 8) % 8 +
              t.shape.prod * getDtypeSize t.dtype) ((t.hash, (pre.length +
              (8 - pre.length % 8) % 8, pre.length + (8 - pre.length % 8) % 8 +
              t.shape.prod * getDtypeSize t.dtype)) :: w1)).1.length := by
            rw [pass1_length]
            exact hkr
          have hb2' : lookupAssoc store (rest.get ⟨k, hkr⟩).2.hash = some b2 := hb2
          obtain ⟨hc1, hc2, hc3⟩ := hslice' k hkr hh' b2 hb2'
          rw [List.get_of_eq hunf1 ⟨k + 1, hh⟩]
          refine ⟨hc1, ?_, ?_⟩
          · rw [show pre ++ chunksBytes (((8 - pre.length % 8) % 8, t.hash, b) :: chunks') =
              (pre ++ (List.replicate ((8 - pre.length % 8) % 8) 0 ++ b)) ++ chunksBytes chunks'
              from hdatashape]
            exact hc2
          · rw [show pre ++ chunksBytes (((8 - pre.length % 8) % 8, t.hash, b) :: chunks') =
              (pre ++ (List.replicate ((8 - pre.length % 8) % 8) 0 ++ b)) ++ chunksBytes chunks'
              from hdatashape]
            exact hc3
    -- seen hash: pass 1 aliases the recorded range, pass 2 skips
    · obtain ⟨hmemw2, halign0, b0, hb0, hend0, hle0, hslice0⟩ := hgs.1 t.hash se hl
      have hsz2 : ∀ p ∈ writtenTensors rest w2, ∀ b2,
          lookupAssoc store p.2.hash = some b2 → b2.length = sizeBytes p.2 :=
        fun p hp => hsz p (by
          rw [writtenTensors_cons_mem name t rest w2 hmemw2]
          exact hp)
      obtain ⟨chunks, hok, hlen, hreg, halign, hslice⟩ :=
        restore_core store rest pre w1 w2 hgs
          (fun p hp => hpres p (List.mem_cons_of_mem _ hp)) hsz2
      have hunf := pass1_cons_some name t rest pre.length w1 se hl
      have hunf1 := congrArg Prod.fst hunf
      have hunf2 := congrArg Prod.snd hunf
      have hlcons : (restorePass1 ((name, t) :: rest) pre.length w1).1.length =
          rest.length + 1 := by
        rw [pass1_length]
        simp
      refine ⟨chunks, ?_, ?_, ?_, ?_, ?_⟩
      · rw [pass2_cons_mem store name t rest pre.length w2 hmemw2]
        exact hok
      · rw [hunf2]
        exact hlen
      · intro r hr
        obtain ⟨k, hh', hoff⟩ := hreg r hr
        have hhk : k + 1 < (restorePass1 ((name, t) :: rest) pre.length w1).1.length := by
          rw [hlcons]
          rw [pass1_length] at hh'
          omega
        refine ⟨k + 1, hhk, ?_⟩
        rw [List.get_of_eq hunf1 ⟨k + 1, hhk⟩]
        exact hoff
      · intro k hh
        match k with
        | 0 =>
          rw [List.get_of_eq hunf1 ⟨0, hh⟩]
          exact halign0
        | k + 1 =>
          have hh' : k < (restorePass1 rest pre.length w1).1.length := by
            rw [pass1_length]
            rw [hlcons] at hh
            omega
          have halr := halign k hh'
          rw [List.get_of_eq hunf1 ⟨k + 1, hh⟩]
          exact halr
      · intro k hk hh b2 hb2
        match k with
        | 0 =>
          have hb2' : b2 = b0 := by
            have h5 : lookupAssoc store t.hash = some b2 := hb2
            rw [hb0] at h5
            exact (Option.some.inj h5).symm
          subst hb2'
          rw [List.get_of_eq hunf1 ⟨0, hh⟩]
          refine ⟨hend0, ?_, ?_⟩
          · show se.2 ≤ (pre ++ chunksBytes chunks).length
            simp only [List.length_append]
            omega
          · show listSlice (pre ++ chunksBytes chunks) se.1 se.2 = b2
            rw [listSlice_append_of_le _ _ _ _ (by omega) hle0]
            exact hslice0
        | k + 1 =>
          have hkr : k < rest.length := by
            simp only [List.length_cons] at hk
            omega
          have hh' : k < (restorePass1 rest pre.length w1).1.length := by
            rw [pass1_length]
            exact hkr
          have hb2' : lookupAssoc store (rest.get ⟨k, hkr⟩).2.hash = some b2 := hb2
          obtain ⟨hc1, hc2, hc3⟩ := hslice k hkr hh' b2 hb2'
          rw [List.get_of_eq hunf1 ⟨k + 1, hh⟩]
          exact ⟨hc1, hc2, hc3⟩

theorem listSlice_drop_shape (X tail : List Nat) (size : Nat) :
    listSlice (X ++ tail) X.length (X.length + size) = tail.take size := by
  simp [listSlice, List.drop_left, Nat.add_sub_cancel_left]

/-- The reverse core lemma: if pass 2 succeeded and the emitted data agrees
with pass 1's header (slices at every entry's range equal the stored blob,
and the data is exactly as long as the final cursor), then every blob that
pass 2 copied had the length pass 1 assumed. -/
theorem restore_core_reverse [DecidableEq α] (store : List (α × List Nat)) :
    ∀ (ts : List (String × ManifestTensor α)) (pre : List Nat)
      (w1 : List (α × (Nat × Nat))) (w2 : List α) (chunks : List (Nat × α × List Nat)),
      GoodState store pre w1 w2 →
      restorePass2 store ts pre.length w2 = .ok chunks →
      (pre ++ chunksBytes chunks).length = (restorePass1 ts pre.length w1).2 →
      (∀ (k : Nat) (hk : k < ts.length) (hh : k < (restorePass1 ts pre.length w1).1.length),
        ∀ b, lookupAssoc store (ts.get ⟨k, hk⟩).2.hash = some b →
          listSlice (pre ++ chunksBytes chunks)
            ((restorePass1 ts pre.length w1).1.get ⟨k, hh⟩).2.dataOffsets.1
            ((restorePass1 ts pre.length w1).1.get ⟨k, hh⟩).2.dataOffsets.2 = b) →
      ∀ p ∈ writtenTensors ts w2, ∀ b, lookupAssoc store p.2.hash = some b →
        b.length = sizeBytes p.2
  | [], pre, w1, w2, chunks, _, _, _, _ => by
    intro p hp
    rw [show writtenTensors ([] : List (String × ManifestTensor α)) w2 = [] from rfl] at hp
    exact absurd hp (by simp)
  | (name, t) :: rest, pre, w1, w2, chunks, hgs, hok, hlen, hsl => by
    by_cases hmemw2 : t.hash ∈ w2
    -- seen hash: nothing written for the head, recurse with the same state
    · obtain ⟨se, hse⟩ := hgs.2 t.hash hmemw2
      have hunf := pass1_cons_some name t rest pre.length w1 se hse
      have hunf1 := congrArg Prod.fst hunf
      have hunf2 := congrArg Prod.snd hunf
      have hok2 : restorePass2 store rest pre.length w2 = .ok chunks := by
        rw [pass2_cons_mem store name t rest pre.length w2 hmemw2] at hok
        exact hok
      have hlen2 : (pre ++ chunksBytes chunks).length = (restorePass1 rest pre.length w1).2 := by
        rw [hlen, hunf2]
      have hsl2 : ∀ (k : Nat) (hk : k < rest.length)
          (hh : k < (restorePass1 rest pre.length w1).1.length),
          ∀ b, lookupAssoc store (rest.get ⟨k, hk⟩).2.hash = some b →
            listSlice (pre ++ chunksBytes chunks)
              ((restorePass1 rest pre.length w1).1.get ⟨k, hh⟩).2.dataOffsets.1
              ((restorePass1 rest pre.length w1).1.get ⟨k, hh⟩).2.dataOffsets.2 = b := by
        intro k hk hh b hb
        have hk1 : k + 1 < ((name, t) :: rest).length := by simp; omega
        have hh1 : k + 1 < (restorePass1 ((name, t) :: rest) pre.length w1).1.length := by
          rw [pass1_length]
          simp
          rw [pass1_length] at hh
          omega
        have hinst := hsl (k + 1) hk1 hh1 b hb
        rw [List.get_of_eq hunf1 ⟨k + 1, hh1⟩] at hinst
        exact hinst
      have hrec := restore_core_reverse store rest pre w1 w2 chunks hgs hok2 hlen2 hsl2
      intro p hp
      rw [writtenTensors_cons_mem name t rest w2 hmemw2] at hp
      exact hrec p hp
    -- fresh hash: the head's blob was written; its slice pins its length
    · have hl : lookupAssoc w1 t.hash = none := by
        rcases hl2 : lookupAssoc w1 t.hash with _ | se
        · rfl
        · exact absurd (hgs.1 t.hash se hl2).1 hmemw2
      rcases hlook : lookupAssoc store t.hash with _ | b0
      · exfalso
        rw [show restorePass2 store ((name, t) :: rest) pre.length w2 =
            .error (.io ("No such file or directory (os error 2)")) from by
          simp [restorePass2, hmemw2, hlook]] at hok
        exact Except.noConfusion hok
      · have hok2 := hok
        rw [pass2_cons_new store name t rest pre.length w2 b0 hmemw2 hlook] at hok2
        rcases hrec2 : restorePass2 store rest
            (pre.length + (8 - pre.length % 8) % 8 + b0.length) (t.hash :: w2) with e | cs
        · rw [hrec2] at hok2
          exact Except.noConfusion hok2
        · rw [hrec2] at hok2
          have hchunks : chunks = ((8 - pre.length % 8) % 8, t.hash, b0) :: cs :=
            (Except.ok.inj hok2).symm
          subst hchunks
          have hunf := pass1_cons_none name t rest pre.length w1 hl
          have hunf1 := congrArg Prod.fst hunf
          have hunf2 := congrArg Prod.snd hunf
          have hshape2 : pre ++ chunksBytes (((8 - pre.length % 8) % 8, t.hash, b0) :: cs) =
              (pre ++ List.replicate ((8 - pre.length % 8) % 8) 0) ++ (b0 ++ chunksBytes cs) := by
            rw [chunksBytes_cons]
            simp [chunkBytes, List.append_assoc]
          -- instantiate the slice hypothesis at the head
          have hh1 : 0 < (restorePass1 ((name, t) :: rest) pre.length w1).1.length := by
            rw [pass1_length]
            simp
          have hinst := hsl 0 (by simp) hh1 b0 hlook
          rw [List.get_of_eq hunf1 ⟨0, hh1⟩] at hinst
          have hinst2 : listSlice
              (pre ++ chunksBytes (((8 - pre.length % 8) % 8, t.hash, b0) :: cs))
              (pre.length + (8 - pre.length % 8) % 8)
              (pre.length + (8 - pre.length % 8) % 8 + t.shape.prod * getDtypeSize t.dtype) =
              b0 := hinst
          rw [hshape2] at hinst2
          rw [show pre.length + (8 - pre.length % 8) % 8 =
              (pre ++ List.replicate ((8 - pre.length % 8) % 8) 0).length from by simp] at hinst2
          rw [listSlice_drop_shape] at hinst2
          have htklen := congrArg List.length hinst2
          rw [List.length_take, List.length_append] at htklen
          -- the cursor monotonicity rules out a short blob hiding at the end
          have hmono := pass1_offset_mono rest
            (pre.length + (8 - pre.length % 8) % 8 + t.shape.prod * getDtypeSize t.dtype)
            ((t.hash, (pre.length + (8 - pre.length % 8) % 8,
              pre.length + (8 - pre.length % 8) % 8 + t.shape.prod * getDtypeSize t.dtype)) :: w1)
          have hlen2 := hlen
          rw [hunf2] at hlen2
          rw [show (pre ++ chunksBytes (((8 - pre.length % 8) % 8, t.hash, b0) :: cs)).length =
              pre.length + (8 - pre.length % 8) % 8 + b0.length + (chunksBytes cs).length from by
            rw [hshape2]
            simp [List.length_append, List.length_replicate]
            omega] at hlen2
          have hb0len : b0.length = t.shape.prod * getDtypeSize t.dtype := by
            omega
          -- now the state extends exactly as in the forward lemma
          have hgs' := goodState_extend store pre w1 w2 t b0 hgs hlook hb0len
          have hplen : (pre ++ (List.replicate ((8 - pre.length % 8) % 8) 0 ++ b0)).length =
              pre.length + (8 - pre.length % 8) % 8 + t.shape.prod * getDtypeSize t.dtype := by
            simp only [List.length_append, List.length_replicate]
            omega
          have hdatashape : pre ++ chunksBytes (((8 - pre.length % 8) % 8, t.hash, b0) :: cs) =
              (pre ++ (List.replicate ((8 - pre.length % 8) % 8) 0 ++ b0)) ++ chunksBytes cs := by
            rw [chunksBytes_cons]
            simp [chunkBytes, List.append_assoc]
          have hok3 : restorePass2 store rest
              (pre ++ (List.replicate ((8 - pre.length % 8) % 8) 0 ++ b0)).length
              (t.hash :: w2) = .ok cs := by
            rw [hplen]
            rw [show pre.length + (8 - pre.length % 8) % 8 + t.shape.prod * getDtypeSize t.dtype =
              pre.length + (8 - pre.length % 8) % 8 + b0.length from by omega]
            exact hrec2
          have hlen3 : ((pre ++ (List.replicate ((8 - pre.length % 8) % 8) 0 ++ b0)) ++
              chunksBytes cs).length = (restorePass1 rest
              (pre ++ (List.replicate ((8 - pre.length % 8) % 8) 0 ++ b0)).length
              ((t.hash, (pre.length + (8 - pre.length % 8) % 8,
                pre.length + (8 - pre.length % 8) % 8 +
                  t.shape.prod * getDtypeSize t.dtype)) :: w1)).2 := by
            rw [hplen]
            rw [← hdatashape]
            rw [hlen, hunf2]
          have hsl3 : ∀ (k : Nat) (hk : k < rest.length)
              (hh : k < (restorePass1 rest
                (pre ++ (List.replicate ((8 - pre.length % 8) % 8) 0 ++ b0)).length
                ((t.hash, (pre.length + (8 - pre.length % 8) % 8,
                  pre.length + (8 - pre.length % 8) % 8 +
                    t.shape.prod * getDtypeSize t.dtype)) :: w1)).1.length),
              ∀ b, lookupAssoc store (rest.get ⟨k, hk⟩).2.hash = some b →
                listSlice ((pre ++ (List.replicate ((8 - pre.length % 8) % 8) 0 ++ b0)) ++
                    chunksBytes cs)
                  ((restorePass1 rest
                    (pre ++ (List.replicate ((8 - pre.length % 8) % 8) 0 ++ b0)).length
                    ((t.hash, (pre.length + (8 - pre.length % 8) % 8,
                      pre.length + (8 - pre.length % 8) % 8 +
                        t.shape.prod * getDtypeSize t.dtype)) :: w1)).1.get
                      ⟨k, hh⟩).2.dataOffsets.1
                  ((restorePass1 rest
                    (pre ++ (List.replicate ((8 - pre.length % 8) % 8) 0 ++ b0)).length
                    ((t.hash, (pre.length + (8 - pre.length % 8) % 8,
                      pre.length + (8 - pre.length % 8) % 8 +
                        t.shape.prod * getDtypeSize t.dtype)) :: w1)).1.get
                      ⟨k, hh⟩).2.dataOffsets.2 = b := by
            rw [hplen]
            intro k hk hh b hb
            have hk1 : k + 1 < ((name, t) :: rest).length := by simp; omega
            have hh1 : k + 1 < (restorePass1 ((name, t) :: rest) pre.length w1).1.length := by
              rw [pass1_length]
              simp
              rw [pass1_length] at hh
              omega
            have hinst3 := hsl (k + 1) hk1 hh1 b hb
            rw [List.get_of_eq hunf1 ⟨k + 1, hh1⟩] at hinst3
            rw [hdatashape] at hinst3
            exact hinst3
          have hrest := restore_core_reverse store rest
            (pre ++ (List.replicate ((8 - pre.length % 8) % 8) 0 ++ b0))
            ((t.hash, (pre.length + (8 - pre.length % 8) % 8,
              pre.length + (8 - pre.length % 8) % 8 +
                t.shape.prod * getDtypeSize t.dtype)) :: w1)
            (t.hash :: w2) cs hgs' hok3 hlen3 hsl3
          intro p hp
          rw [writtenTensors_cons_new name t rest w2 hmemw2] at hp
          rcases List.mem_cons.mp hp with rfl | hp2
          · intro b hb
            have hbn : lookupAssoc store t.hash = some b := hb
            rw [hlook] at hbn
            rcases Option.some.inj hbn with rfl
            exact hb0len
          · exact hrest p hp2

/-! ## Claims C3 and C10: layout of the restored file -/

theorem goodState_nil [DecidableEq α] (store : List (α × List Nat)) :
    GoodState store ([] : List Nat) ([] : List (α × (Nat × Nat))) ([] : List α) := by
  constructor
  · intro h se hse
    simp [lookupAssoc] at hse
  · intro h hm
    exact absurd hm (by simp)

theorem restore_ok_inv [DecidableEq α] (m : VektManifest α) (store : List (α × List Nat))
    (filter : Option String) (out : RestoreOutput α)
    (hres : restore m store filter = .ok out) :
    ∃ chunks, restorePass2 store (includedSorted m filter) 0 [] = .ok chunks ∧
      out = ⟨(restorePass1 (includedSorted m filter) 0 []).1, chunksBytes chunks,
        chunks.map (fun c => c.2.1)⟩ := by
  rcases hp2 : restorePass2 store (includedSorted m filter) 0 [] with e | chunks
  · rw [restore, hp2] at hres
    exact Except.noConfusion hres
  · rw [restore, hp2] at hres
    exact ⟨chunks, rfl, (Except.ok.inj hres).symm⟩

/-- C3: in every file produced by a successful restore (with the stored
blobs present and of the lengths pass 1 assumes), every tensor's assigned
`data_offsets` start is a multiple of 8, and every byte of the data section
lying outside all tensors' assigned ranges is zero. -/
theorem c3_alignment_zero_padding [DecidableEq α] (m : VektManifest α)
    (store : List (α × List Nat)) (filter : Option String) (out : RestoreOutput α)
    (hpres : BlobsPresent store (includedSorted m filter))
    (hsz : SizesMatch store (includedSorted m filter))
    (hres : restore m store filter = .ok out) :
    (∀ p ∈ out.headerEntries, p.2.dataOffsets.1 % 8 = 0) ∧
    (∀ (q : Nat) (hq : q < out.data.length),
      (∀ p ∈ out.headerEntries, q < p.2.dataOffsets.1 ∨ p.2.dataOffsets.2 ≤ q) →
      out.data.get ⟨q, hq⟩ = 0) := by
  obtain ⟨chunks, hp2, hout⟩ := restore_ok_inv m store filter out hres
  subst hout
  obtain ⟨chunks2, hok2, hlen2, hreg2, halign2, hslice2⟩ :=
    restore_core store (includedSorted m filter) [] [] [] (goodState_nil store) hpres hsz
  have hok2' : restorePass2 store (includedSorted m filter) 0 [] = .ok chunks2 := hok2
  have hch : chunks2 = chunks := Except.ok.inj (hok2'.symm.trans hp2)
  subst hch
  constructor
  · intro p hp
    obtain ⟨⟨k, hk⟩, hget⟩ := List.mem_iff_get.mp hp
    rw [← hget]
    exact halign2 k hk
  · intro q hq houtside
    have hq' : q - 0 < (chunksBytes chunks2).length := by simpa using hq
    have hreg2' : ∀ r ∈ chunkRegions 0 chunks2, q < r.1 ∨ r.2 ≤ q := by
      intro r hr
      have hr0 : r ∈ chunkRegions (([] : List Nat).length) chunks2 := hr
      obtain ⟨k, hh, hoff⟩ := hreg2 r hr0
      have hoff2 : ((restorePass1 (includedSorted m filter) 0 []).1.get
          ⟨k, hh⟩).2.dataOffsets = r := hoff
      have hdisj := houtside ((restorePass1 (includedSorted m filter) 0 []).1.get ⟨k, hh⟩)
        (List.get_mem _ k hh)
      rw [hoff2] at hdisj
      exact hdisj
    exact chunksBytes_zero_outside chunks2 0 q (Nat.zero_le q) hq' hreg2'

/-- Witness for C3 at scenario S3: data section `CC 00×7 DD`. -/
theorem c3_alignment_zero_padding_witness :
    (BlobsPresent sw3 (includedSorted mw3 none) ∧
     SizesMatch sw3 (includedSorted mw3 none) ∧
     restore mw3 sw3 none = .ok
       (RestoreOutput.mk
         [("tensor_a", ⟨[1], "U8", (0, 1), []⟩), ("tensor_b", ⟨[1], "U8", (8, 9), []⟩)]
         [204, 0, 0, 0, 0, 0, 0, 0, 221] ["ca", "db"])) ∧
    ((∀ p ∈ (RestoreOutput.mk
         [("tensor_a", (⟨[1], "U8", (0, 1), []⟩ : RawTensorMetaData)),
          ("tensor_b", ⟨[1], "U8", (8, 9), []⟩)]
         [204, 0, 0, 0, 0, 0, 0, 0, 221] ["ca", "db"]).headerEntries,
        p.2.dataOffsets.1 % 8 = 0) ∧
     (∀ (q : Nat) (hq : q < (RestoreOutput.mk
         [("tensor_a", (⟨[1], "U8", (0, 1), []⟩ : RawTensorMetaData)),
          ("tensor_b", ⟨[1], "U8", (8, 9), []⟩)]
         [204, 0, 0, 0, 0, 0, 0, 0, 221] (["ca", "db"] : List String)).data.length),
        (∀ p ∈ (RestoreOutput.mk
           [("tensor_a", (⟨[1], "U8", (0, 1), []⟩ : RawTensorMetaData)),
            ("tensor_b", ⟨[1], "U8", (8, 9), []⟩)]
           [204, 0, 0, 0, 0, 0, 0, 0, 221] (["ca", "db"] : List String)).headerEntries,
          q < p.2.dataOffsets.1 ∨ p.2.dataOffsets.2 ≤ q) →
        (RestoreOutput.mk
           [("tensor_a", (⟨[1], "U8", (0, 1), []⟩ : RawTensorMetaData)),
            ("tensor_b", ⟨[1], "U8", (8, 9), []⟩)]
           [204, 0, 0, 0, 0, 0, 0, 0, 221] (["ca", "db"] : List String)).data.get ⟨q, hq⟩ = 0)) :=
  ⟨⟨fun p hp => by
      rcases List.mem_cons.mp hp with rfl | hp2
      · exact ⟨[204], rfl⟩
      · rcases List.mem_singleton.mp hp2 with rfl
        exact ⟨[221], rfl⟩,
    fun p hp b hb => by
      rcases List.mem_cons.mp hp with rfl | hp2
      · have h2 : some [204] = some b := hb
        rcases Option.some.inj h2 with rfl
        rfl
      · rcases List.mem_singleton.mp hp2 with rfl
        have h2 : some [221] = some b := hb
        rcases Option.some.inj h2 with rfl
        rfl,
    rfl⟩,
   c3_alignment_zero_padding mw3 sw3 none _
     (fun p hp => by
       rcases List.mem_cons.mp hp with rfl | hp2
       · exact ⟨[204], rfl⟩
       · rcases List.mem_singleton.mp hp2 with rfl
         exact ⟨[221], rfl⟩)
     (fun p hp b hb => by
       rcases List.mem_cons.mp hp with rfl | hp2
       · have h2 : some [204] = some b := hb
         rcases Option.some.inj h2 with rfl
         rfl
       · rcases List.mem_singleton.mp hp2 with rfl
         have h2 : some [221] = some b := hb
         rcases Option.some.inj h2 with rfl
         rfl)
     rfl⟩

/-- C10: the restored header's offsets describe the bytes pass 2 actually
wrote if and only if, for every included tensor whose hash is written
(first occurrence), the stored blob's length equals
`product(shape) × dtype_size(dtype)`. -/
theorem c10_offsets_describe_iff [DecidableEq α] (m : VektManifest α)
    (store : List (α × List Nat)) (filter : Option String) (out : RestoreOutput α)
    (hpres : BlobsPresent store (includedSorted m filter))
    (hres : restore m store filter = .ok out) :
    OffsetsDescribeData store m filter out ↔ SizesMatch store (includedSorted m filter) := by
  obtain ⟨chunks, hp2, hout⟩ := restore_ok_inv m store filter out hres
  subst hout
  constructor
  · intro hdesc
    have hok : restorePass2 store (includedSorted m filter)
        (([] : List Nat).length) [] = .ok chunks := hp2
    have hlen : (([] : List Nat) ++ chunksBytes chunks).length =
        (restorePass1 (includedSorted m filter) (([] : List Nat).length) []).2 := hdesc.2
    have hsl : ∀ (k : Nat) (hk : k < (includedSorted m filter).length)
        (hh : k < (restorePass1 (includedSorted m filter) (([] : List Nat).length) []).1.length),
        ∀ b, lookupAssoc store ((includedSorted m filter).get ⟨k, hk⟩).2.hash = some b →
          listSlice (([] : List Nat) ++ chunksBytes chunks)
            ((restorePass1 (includedSorted m filter) (([] : List Nat).length) []).1.get
              ⟨k, hh⟩).2.dataOffsets.1
            ((restorePass1 (includedSorted m filter) (([] : List Nat).length) []).1.get
              ⟨k, hh⟩).2.dataOffsets.2 = b := by
      intro k hk hh b hb
      exact hdesc.1 k hk hh b hb
    exact restore_core_reverse store (includedSorted m filter) [] [] [] chunks
      (goodState_nil store) hok hlen hsl
  · intro hsz
    obtain ⟨chunks2, hok2, hlen2, hreg2, halign2, hslice2⟩ :=
      restore_core store (includedSorted m filter) [] [] [] (goodState_nil store) hpres hsz
    have hok2' : restorePass2 store (includedSorted m filter) 0 [] = .ok chunks2 := hok2
    have hch : chunks2 = chunks := Except.ok.inj (hok2'.symm.trans hp2)
    subst hch
    constructor
    · intro k hk hk2 b hb
      exact (hslice2 k hk hk2 b hb).2.2
    · exact hlen2

/-- Witness for C10 at scenario S3. -/
theorem c10_offsets_describe_iff_witness :
    (BlobsPresent sw3 (includedSorted mw3 none) ∧
     restore mw3 sw3 none = .ok
       (RestoreOutput.mk
         [("tensor_a", ⟨[1], "U8", (0, 1), []⟩), ("tensor_b", ⟨[1], "U8", (8, 9), []⟩)]
         [204, 0, 0, 0, 0, 0, 0, 0, 221] ["ca", "db"])) ∧
    (OffsetsDescribeData sw3 mw3 none
       (RestoreOutput.mk
         [("tensor_a", ⟨[1], "U8", (0, 1), []⟩), ("tensor_b", ⟨[1], "U8", (8, 9), []⟩)]
         [204, 0, 0, 0, 0, 0, 0, 0, 221] ["ca", "db"]) ↔
     SizesMatch sw3 (includedSorted mw3 none)) :=
  ⟨⟨fun p hp => by
      rcases List.mem_cons.mp hp with rfl | hp2
      · exact ⟨[204], rfl⟩
      · rcases List.mem_singleton.mp hp2 with rfl
        exact ⟨[221], rfl⟩,
    rfl⟩,
   c10_offsets_describe_iff mw3 sw3 none _
     (fun p hp => by
       rcases List.mem_cons.mp hp with rfl | hp2
       · exact ⟨[204], rfl⟩
       · rcases List.mem_singleton.mp hp2 with rfl
         exact ⟨[221], rfl⟩)
     rfl⟩

/-- Witness for C4 at scenario S2: two tensors sharing hash `hh`. -/
theorem c4_shared_hash_dedup_witness :
    ((mw4.tensors.map Prod.fst).Nodup ∧
     restore mw4 sw4 none = .ok (RestoreOutput.mk
       [("tensor_a", ⟨[4], "U8", (0, 4), []⟩), ("tensor_b", ⟨[4], "U8", (0, 4), []⟩)]
       [17, 34, 51, 68] ["hh"])) ∧
    ((∃ ma mb,
       lookupAssoc (RestoreOutput.mk
         [("tensor_a", (⟨[4], "U8", (0, 4), []⟩ : RawTensorMetaData)),
          ("tensor_b", ⟨[4], "U8", (0, 4), []⟩)]
         [17, 34, 51, 68] (["hh"] : List String)).headerEntries ("tensor_a") = some ma ∧
       lookupAssoc (RestoreOutput.mk
         [("tensor_a", (⟨[4], "U8", (0, 4), []⟩ : RawTensorMetaData)),
          ("tensor_b", ⟨[4], "U8", (0, 4), []⟩)]
         [17, 34, 51, 68] (["hh"] : List String)).headerEntries ("tensor_b") = some mb ∧
       ma.dataOffsets = mb.dataOffsets) ∧
     (RestoreOutput.mk
       [("tensor_a", (⟨[4], "U8", (0, 4), []⟩ : RawTensorMetaData)),
        ("tensor_b", ⟨[4], "U8", (0, 4), []⟩)]
       [17, 34, 51, 68] (["hh"] : List String)).writes.count ("hh") = 1) :=
  ⟨⟨by decide, rfl⟩,
   c4_shared_hash_dedup mw4 sw4 none _ ("tensor_a") ("tensor_b")
     ⟨[4], "U8", "hh", 0, []⟩ ⟨[4], "U8", "hh", 1, []⟩ (by decide)
     (List.mem_cons_self _ _) (List.mem_cons_of_mem _ (List.mem_singleton.mpr rfl))
     rfl rfl rfl rfl⟩

/-! ## Claim C1: ingest/restore payload round trip -/

theorem pairwise_lt_enumFrom : ∀ (i : Nat) (l : List β),
    (List.enumFrom i l).Pairwise (fun a b => a.1 < b.1)
  | _, [] => List.Pairwise.nil
  | i, x :: rest => by
    rw [List.enumFrom_cons]
    refine List.Pairwise.cons ?_ (pairwise_lt_enumFrom (i + 1) rest)
    intro q hq
    have := List.mem_enumFrom hq
    omega

theorem entriesOf_length (hashFn : List Nat → α) (f : SafetensorFile) :
    (entriesOf hashFn f).length = f.header.length := by
  simp [entriesOf]

theorem entriesOf_names (hashFn : List Nat → α) (f : SafetensorFile) :
    (entriesOf hashFn f).map Prod.fst = f.header.map Prod.fst := by
  have h := congrArg (List.map Prod.fst) (List.enumFrom_map_snd 0 f.header)
  rw [List.map_map] at h
  simp only [entriesOf, List.map_map, List.enum]
  exact h

theorem entriesOf_index_lt (hashFn : List Nat → α) (f : SafetensorFile) :
    (entriesOf hashFn f).Pairwise (fun a b => a.2.index < b.2.index) := by
  rw [entriesOf, List.pairwise_map]
  exact (pairwise_lt_enumFrom 0 f.header).imp (fun h => h)

theorem entriesOf_get (hashFn : List Nat → α) (f : SafetensorFile) (k : Nat)
    (hk : k < f.header.length) (hk2 : k < (entriesOf hashFn f).length) :
    (entriesOf hashFn f).get ⟨k, hk2⟩ =
      ((f.header.get ⟨k, hk⟩).1,
        ⟨(f.header.get ⟨k, hk⟩).2.shape, (f.header.get ⟨k, hk⟩).2.dtype,
         hashFn (listSlice f.mmap (f.headerLen + 8 + (f.header.get ⟨k, hk⟩).2.dataOffsets.1)
           (f.headerLen + 8 + (f.header.get ⟨k, hk⟩).2.dataOffsets.2)),
         k, (f.header.get ⟨k, hk⟩).2.extra⟩) := by
  simp [entriesOf, List.get_eq_getElem, List.getElem_map, List.getElem_enum]

/-- Inserting a fresh key into a `BTreeMap` is a permutation of consing. -/
theorem btreeInsert_perm_fresh (k : String) (v : β) :
    ∀ acc : List (String × β), (∀ p ∈ acc, p.1 ≠ k) →
      (btreeInsert k v acc).Perm ((k, v) :: acc)
  | [], _ => List.Perm.refl _
  | (k2, v2) :: rest, hfr => by
    simp only [btreeInsert]
    by_cases h1 : strLt k k2 = true
    · rw [if_pos h1]
    · rw [if_neg h1]
      have hne : ¬ k = k2 := fun heq =>
        (hfr (k2, v2) (List.mem_cons_self _ _)) heq.symm
      rw [if_neg hne]
      have ih := btreeInsert_perm_fresh k v rest
        (fun p hp => hfr p (List.mem_cons_of_mem _ hp))
      exact (ih.cons (k2, v2)).trans (List.Perm.swap (k, v) (k2, v2) rest)

/-- Folding `BTreeMap::insert` over entries with globally distinct names
permutes them. -/
theorem btree_fold_perm :
    ∀ (l acc : List (String × β)), (((l ++ acc).map Prod.fst)).Nodup →
      (l.foldl (fun a q => btreeInsert q.1 q.2 a) acc).Perm (l ++ acc)
  | [], acc, _ => by simp
  | q :: rest, acc, hnd => by
    have hfr : ∀ p ∈ acc, p.1 ≠ q.1 := by
      intro p hp heq
      have h1 : q.1 ∈ (rest ++ acc).map Prod.fst := by
        rw [← heq]
        exact List.mem_map_of_mem Prod.fst (List.mem_append.mpr (Or.inr hp))
      rw [List.cons_append, List.map_cons, List.nodup_cons] at hnd
      exact hnd.1 h1
    have hperm1 : (btreeInsert q.1 q.2 acc).Perm ((q.1, q.2) :: acc) :=
      btreeInsert_perm_fresh q.1 q.2 acc hfr
    have hnd2 : ((rest ++ btreeInsert q.1 q.2 acc).map Prod.fst).Nodup := by
      have hp2 : (rest ++ btreeInsert q.1 q.2 acc).Perm (rest ++ (q.1, q.2) :: acc) :=
        List.Perm.append_left rest hperm1
      have hp3 : (rest ++ (q.1, q.2) :: acc).Perm ((q.1, q.2) :: (rest ++ acc)) :=
        List.perm_middle
      have hp4 := (hp2.trans hp3).map Prod.fst
      rw [hp4.nodup_iff]
      have : ((q :: rest ++ acc).map Prod.fst).Nodup := hnd
      simpa using this
    have ih := btree_fold_perm rest (btreeInsert q.1 q.2 acc) hnd2
    simp only [List.foldl_cons]
    refine ih.trans ?_
    have hp2 : (rest ++ btreeInsert q.1 q.2 acc).Perm (rest ++ (q.1, q.2) :: acc) :=
      List.Perm.append_left rest hperm1
    refine hp2.trans ?_
    refine List.perm_middle.trans ?_
    simp

/-- A stable sort by index of a permutation of a strictly index-sorted list
recovers that list. -/
theorem sortByIndex_eq_of_perm (l target : List (String × ManifestTensor α))
    (hperm : l.Perm target)
    (hsorted : target.Pairwise (fun a b => a.2.index < b.2.index)) :
    sortByIndex l = target := by
  have hs1 : (sortByIndex l).Pairwise (fun a b => a.2.index ≤ b.2.index) :=
    List.sorted_insertionSort
      (fun (a b : String × ManifestTensor α) => a.2.index ≤ b.2.index) l
  have hsortperm : (sortByIndex l).Perm l :=
    List.perm_insertionSort
      (fun (a b : String × ManifestTensor α) => a.2.index ≤ b.2.index) l
  have hndidx : ((sortByIndex l).map (fun p => p.2.index)).Nodup := by
    have h1 : (target.map (fun p => p.2.index)).Nodup :=
      List.pairwise_map.mpr (hsorted.imp (fun h => Nat.ne_of_lt h))
    have h2 := ((hsortperm.trans hperm).map (fun p => p.2.index)).nodup_iff
    exact h2.mpr h1
  have hne : (sortByIndex l).Pairwise (fun a b => a.2.index ≠ b.2.index) :=
    List.pairwise_map.mp hndidx
  have hstrict : (sortByIndex l).Pairwise (fun a b => a.2.index < b.2.index) :=
    (hs1.and hne).imp (fun h => Nat.lt_of_le_of_ne h.1 h.2)
  haveI : IsAntisymm (String × ManifestTensor α) (fun a b => a.2.index < b.2.index) :=
    ⟨fun a b h1 h2 => absurd (Nat.lt_trans h1 h2) (Nat.lt_irrefl _)⟩
  exact List.eq_of_perm_of_sorted (hsortperm.trans hperm) hstrict hsorted

/-- With no filter every tensor is included. -/
theorem includedSorted_none [DecidableEq α] (m : VektManifest α) :
    includedSorted m none = sortByIndex m.tensors := by
  simp [includedSorted, includeName, List.filter_true]

theorem writtenTensors_subset [DecidableEq α] :
    ∀ (ts : List (String × ManifestTensor α)) (seen : List α) (p : String × ManifestTensor α),
      p ∈ writtenTensors ts seen → p ∈ ts
  | [], seen, p, hp => by simp [writtenTensors] at hp
  | (n, t) :: rest, seen, p, hp => by
    by_cases hmem : t.hash ∈ seen
    · rw [writtenTensors_cons_mem n t rest seen hmem] at hp
      exact List.mem_cons_of_mem _ (writtenTensors_subset rest seen p hp)
    · rw [writtenTensors_cons_new n t rest seen hmem] at hp
      rcases List.mem_cons.mp hp with rfl | hp2
      · exact List.mem_cons_self _ _
      · exact List.mem_cons_of_mem _ (writtenTensors_subset rest (t.hash :: seen) p hp2)

/-- Every entry of a store built by deduplicating saves holds the bytes its
key digests. -/
theorem store_fold_hashOk [DecidableEq α] (hashFn : List Nat → α) (g : Nat × Nat → List Nat) :
    ∀ (L : List (Nat × Nat)) (st : List (α × List Nat)),
      (∀ q ∈ st, hashFn q.2 = q.1) →
      ∀ q ∈ L.foldl (fun acc se => saveBlobDedup hashFn acc (g se)) st, hashFn q.2 = q.1
  | [], st, hok, q, hq => hok q hq
  | se :: rest, st, hok, q, hq => by
    have hok2 : ∀ q2 ∈ saveBlobDedup hashFn st (g se), hashFn q2.2 = q2.1 := by
      intro q2 hq2
      rw [saveBlobDedup] at hq2
      by_cases hc : (lookupAssoc st (hashFn (g se))).isSome
      · rw [if_pos hc] at hq2
        exact hok q2 hq2
      · rw [if_neg hc] at hq2
        rcases List.mem_cons.mp hq2 with rfl | hq3
        · rfl
        · exact hok q2 hq3
    exact store_fold_hashOk hashFn g rest (saveBlobDedup hashFn st (g se)) hok2 q hq

theorem lookupAssoc_hashOk [DecidableEq α] (hashFn : List Nat → α) :
    ∀ (st : List (α × List Nat)), (∀ q ∈ st, hashFn q.2 = q.1) →
      ∀ (h : α) (b : List Nat), lookupAssoc st h = some b → hashFn b = h
  | [], _, h, b, hl => by simp [lookupAssoc] at hl
  | (k, v) :: rest, hok, h, b, hl => by
    by_cases hc : h = k
    · subst hc
      rw [lookupAssoc, if_pos rfl] at hl
      have hv : v = b := Option.some.inj hl
      subst hv
      exact hok (h, v) (List.mem_cons_self _ _)
    · rw [lookupAssoc, if_neg hc] at hl
      exact lookupAssoc_hashOk hashFn rest
        (fun q hq => hok q (List.mem_cons_of_mem _ hq)) h b hl

/-- Saving never removes a stored blob. -/
theorem store_fold_preserves [DecidableEq α] (hashFn : List Nat → α) (g : Nat × Nat → List Nat) :
    ∀ (L : List (Nat × Nat)) (st : List (α × List Nat)) (h : α) (b : List Nat),
      lookupAssoc st h = some b →
      lookupAssoc (L.foldl (fun acc se => saveBlobDedup hashFn acc (g se)) st) h = some b
  | [], st, h, b, hl => hl
  | se :: rest, st, h, b, hl => by
    have hl2 : lookupAssoc (saveBlobDedup hashFn st (g se)) h = some b := by
      rw [saveBlobDedup]
      by_cases hc : (lookupAssoc st (hashFn (g se))).isSome
      · rw [if_pos hc]
        exact hl
      · rw [if_neg hc]
        have hne : h ≠ hashFn (g se) := by
          intro heq
          rw [← heq, hl] at hc
          exact hc rfl
        rw [lookupAssoc, if_neg hne]
        exact hl
    exact store_fold_preserves hashFn g rest (saveBlobDedup hashFn st (g se)) h b hl2

/-- After the save pass every processed slice's digest is present. -/
theorem store_fold_present [DecidableEq α] (hashFn : List Nat → α) (g : Nat × Nat → List Nat) :
    ∀ (L : List (Nat × Nat)) (st : List (α × List Nat)) (se : Nat × Nat), se ∈ L →
      ∃ b, lookupAssoc (L.foldl (fun acc se => saveBlobDedup hashFn acc (g se)) st)
        (hashFn (g se)) = some b
  | [], _, se, hse => absurd hse (by simp)
  | se0 :: rest, st, se, hse => by
    rcases List.mem_cons.mp hse with rfl | hse2
    · have hsome : ∃ b, lookupAssoc (saveBlobDedup hashFn st (g se)) (hashFn (g se)) = some b := by
        rw [saveBlobDedup]
        by_cases hc : (lookupAssoc st (hashFn (g se))).isSome
        · rw [if_pos hc]
          exact Option.isSome_iff_exists.mp hc
        · rw [if_neg hc]
          exact ⟨g se, by rw [lookupAssoc, if_pos rfl]⟩
      obtain ⟨b, hb⟩ := hsome
      exact ⟨b, store_fold_preserves hashFn g rest _ _ b hb⟩
    · exact store_fold_present hashFn g rest (saveBlobDedup hashFn st (g se0)) se hse2

/-- The fail-fast collection loop succeeds on in-bounds tensors, inserting
each entry and recording each absolute range. -/
theorem buildResults_ok_aux [DecidableEq α] (hashFn : List Nat → α) (f : SafetensorFile) :
    ∀ (l : List (String × RawTensorMetaData)) (i : Nat)
      (acc : List (String × ManifestTensor α)) (vacc : List (Nat × Nat)),
      (∀ p ∈ l, f.headerLen + 8 + p.2.dataOffsets.2 ≤ f.mmap.length) →
      buildResults ((l.enumFrom i).map (fun p => processTensor hashFn f p.1 p.2.1 p.2.2))
          acc vacc =
        .ok (((l.enumFrom i).map (fun p =>
            (p.2.1, (⟨p.2.2.shape, p.2.2.dtype,
              hashFn (listSlice f.mmap (f.headerLen + 8 + p.2.2.dataOffsets.1)
                (f.headerLen + 8 + p.2.2.dataOffsets.2)), p.1, p.2.2.extra⟩ :
              ManifestTensor α)))).foldl (fun a q => btreeInsert q.1 q.2 a) acc,
          vacc.reverse ++ l.map (fun p => (f.headerLen + 8 + p.2.dataOffsets.1,
            f.headerLen + 8 + p.2.dataOffsets.2)))
  | [], i, acc, vacc, _ => by simp [buildResults]
  | (name, meta) :: rest, i, acc, vacc, hb => by
    have hok : f.headerLen + 8 + meta.dataOffsets.2 ≤ f.mmap.length :=
      hb (name, meta) (List.mem_cons_self _ _)
    have hproc : processTensor hashFn f i name meta =
        .ok (name, ⟨meta.shape, meta.dtype,
          hashFn (listSlice f.mmap (f.headerLen + 8 + meta.dataOffsets.1)
            (f.headerLen + 8 + meta.dataOffsets.2)), i, meta.extra⟩,
          f.headerLen + 8 + meta.dataOffsets.1, f.headerLen + 8 + meta.dataOffsets.2) := by
      simp only [processTensor]
      rw [if_neg (Nat.not_lt.mpr hok)]
    have ih := buildResults_ok_aux hashFn f rest (i + 1)
      (btreeInsert name (⟨meta.shape, meta.dtype,
        hashFn (listSlice f.mmap (f.headerLen + 8 + meta.dataOffsets.1)
          (f.headerLen + 8 + meta.dataOffsets.2)), i, meta.extra⟩ : ManifestTensor α) acc)
      ((f.headerLen + 8 + meta.dataOffsets.1, f.headerLen + 8 + meta.dataOffsets.2) :: vacc)
      (fun p hp => hb p (List.mem_cons_of_mem _ hp))
    simp only [List.enumFrom_cons, List.map_cons, hproc, buildResults, List.foldl_cons]
    rw [ih]
    simp [List.append_assoc]

/-- `SafetensorFile::process` on a valid file with blob saving: the manifest
holds the folded entries and the store the deduplicated payload slices. -/
theorem process_ok_of_valid [DecidableEq α] (hashFn : List Nat → α) (f : SafetensorFile)
    (hv : ValidSafetensors f) (st : List (α × List Nat)) :
    process hashFn f true st =
      .ok (⟨tensorsOf hashFn f, "1.0", f.mmap.length⟩,
        (ventriesOf f).foldl
          (fun acc se => saveBlobDedup hashFn acc (listSlice f.mmap se.1 se.2)) st) := by
  have hb : ∀ p ∈ f.header, f.headerLen + 8 + p.2.dataOffsets.2 ≤ f.mmap.length :=
    fun p hp => (hv.2 p hp).2.1
  have h1 := buildResults_ok_aux hashFn f f.header 0 [] [] hb
  simp only [process, List.enum]
  rw [h1]
  simp only [List.reverse_nil, List.nil_append, if_pos rfl]
  rfl

/-- The length of an in-bounds slice. -/
theorem listSlice_length_of_le (xs : List Nat) (s e : Nat) (hs : s ≤ e)
    (he : e ≤ xs.length) : (listSlice xs s e).length = e - s := by
  simp only [listSlice, List.length_take, List.length_drop]
  omega

/-- Sorting the ingested `BTreeMap` by index recovers the entries in header
order. -/
theorem sorted_tensorsOf [DecidableEq α] (hashFn : List Nat → α) (f : SafetensorFile)
    (hnd : (f.header.map Prod.fst).Nodup) :
    sortByIndex (tensorsOf hashFn f) = entriesOf hashFn f := by
  have hnd2 : ((entriesOf hashFn f ++ []).map Prod.fst).Nodup := by
    rw [List.append_nil, entriesOf_names]
    exact hnd
  have hperm : (tensorsOf hashFn f).Perm (entriesOf hashFn f ++ []) :=
    btree_fold_perm (entriesOf hashFn f) [] hnd2
  rw [List.append_nil] at hperm
  exact sortByIndex_eq_of_perm _ _ hperm (entriesOf_index_lt hashFn f)

/-- C1: for every valid safetensors file, ingesting it (`process` with
`save_blobs = true`) and restoring the produced manifest with no filter
succeeds, and every original tensor's payload bytes reappear unchanged at the
`data_offsets` its restored header entry assigns in the data section. -/
theorem c1_payload_roundtrip [DecidableEq α] (hashFn : List Nat → α)
    (hinj : Function.Injective hashFn) (f : SafetensorFile) (hv : ValidSafetensors f)
    (m : VektManifest α) (st : List (α × List Nat))
    (hproc : process hashFn f true [] = .ok (m, st)) :
    ∃ out, restore m st none = .ok out ∧
      ∀ p ∈ f.header, ∃ meta2,
        lookupAssoc out.headerEntries p.1 = some meta2 ∧
        listSlice out.data meta2.dataOffsets.1 meta2.dataOffsets.2 =
          listSlice f.mmap (f.headerLen + 8 + p.2.dataOffsets.1)
            (f.headerLen + 8 + p.2.dataOffsets.2) := by
  have hid := process_ok_of_valid hashFn f hv []
  rw [hproc] at hid
  have hpair := Except.ok.inj hid
  injection hpair with hm hst
  subst hm
  subst hst
  have hnd : (f.header.map Prod.fst).Nodup := hv.1
  have hinc : includedSorted
      (⟨tensorsOf hashFn f, "1.0", f.mmap.length⟩ : VektManifest α) none =
      entriesOf hashFn f := by
    rw [includedSorted_none]
    exact sorted_tensorsOf hashFn f hnd
  have hhashok : ∀ q ∈ (ventriesOf f).foldl
      (fun acc se => saveBlobDedup hashFn acc (listSlice f.mmap se.1 se.2)) [],
      hashFn q.2 = q.1 :=
    store_fold_hashOk hashFn (fun se => listSlice f.mmap se.1 se.2) (ventriesOf f) []
      (fun q hq => absurd hq (by simp))
  have hpres : BlobsPresent ((ventriesOf f).foldl
      (fun acc se => saveBlobDedup hashFn acc (listSlice f.mmap se.1 se.2)) [])
      (entriesOf hashFn f) := by
    intro p hp
    obtain ⟨⟨k, hk2⟩, hget⟩ := List.mem_iff_get.mp hp
    have hk : k < f.header.length := by
      have h := entriesOf_length hashFn f
      omega
    have hse : (f.headerLen + 8 + (f.header.get ⟨k, hk⟩).2.dataOffsets.1,
        f.headerLen + 8 + (f.header.get ⟨k, hk⟩).2.dataOffsets.2) ∈ ventriesOf f := by
      rw [ventriesOf]
      exact List.mem_map_of_mem _ (List.get_mem f.header k hk)
    obtain ⟨b, hb⟩ := store_fold_present hashFn (fun se => listSlice f.mmap se.1 se.2)
      (ventriesOf f) [] _ hse
    refine ⟨b, ?_⟩
    rw [← hget, entriesOf_get hashFn f k hk hk2]
    exact hb
  have hsz : SizesMatch ((ventriesOf f).foldl
      (fun acc se => saveBlobDedup hashFn acc (listSlice f.mmap se.1 se.2)) [])
      (entriesOf hashFn f) := by
    intro p hpw b hb
    have hp : p ∈ entriesOf hashFn f := writtenTensors_subset _ [] p hpw
    obtain ⟨⟨k, hk2⟩, hget⟩ := List.mem_iff_get.mp hp
    have hk : k < f.header.length := by
      have h := entriesOf_length hashFn f
      omega
    have hhash : p.2.hash =
        hashFn (listSlice f.mmap (f.headerLen + 8 + (f.header.get ⟨k, hk⟩).2.dataOffsets.1)
          (f.headerLen + 8 + (f.header.get ⟨k, hk⟩).2.dataOffsets.2)) := by
      rw [← hget, entriesOf_get hashFn f k hk hk2]
    have hfb : hashFn b = p.2.hash :=
      lookupAssoc_hashOk hashFn _ hhashok p.2.hash b hb
    have hbeq : b = listSlice f.mmap (f.headerLen + 8 + (f.header.get ⟨k, hk⟩).2.dataOffsets.1)
        (f.headerLen + 8 + (f.header.get ⟨k, hk⟩).2.dataOffsets.2) :=
      hinj (by rw [hfb, hhash])
    obtain ⟨ho12, hoend, hosz⟩ := hv.2 (f.header.get ⟨k, hk⟩) (List.get_mem f.header k hk)
    have hsh : p.2.shape = (f.header.get ⟨k, hk⟩).2.shape := by
      rw [← hget, entriesOf_get hashFn f k hk hk2]
    have hdt : p.2.dtype = (f.header.get ⟨k, hk⟩).2.dtype := by
      rw [← hget, entriesOf_get hashFn f k hk hk2]
    have hlen : b.length = p.2.shape.prod * getDtypeSize p.2.dtype := by
      rw [hbeq, listSlice_length_of_le f.mmap _ _ (by omega) hoend, hsh, hdt]
      omega
    exact hlen
  obtain ⟨chunks, hok, hlenc, hregc, halignc, hslicec⟩ :=
    restore_core _ (entriesOf hashFn f) [] [] [] (goodState_nil _) hpres hsz
  have hok0 : restorePass2 ((ventriesOf f).foldl
      (fun acc se => saveBlobDedup hashFn acc (listSlice f.mmap se.1 se.2)) [])
      (entriesOf hashFn f) 0 [] = .ok chunks := hok
  refine ⟨⟨(restorePass1 (entriesOf hashFn f) 0 []).1, chunksBytes chunks,
    chunks.map (fun c => c.2.1)⟩, ?_, ?_⟩
  · simp only [restore]
    rw [hinc, hok0]
    simp [Except.map]
  · intro p hp
    obtain ⟨⟨k, hk⟩, hget⟩ := List.mem_iff_get.mp hp
    have hkE : k < (entriesOf hashFn f).length := by
      rw [entriesOf_length]
      exact hk
    have hkP : k < (restorePass1 (entriesOf hashFn f) 0 []).1.length := by
      rw [pass1_length, entriesOf_length]
      exact hk
    refine ⟨((restorePass1 (entriesOf hashFn f) 0 []).1.get ⟨k, hkP⟩).2, ?_, ?_⟩
    · have hndP : ((restorePass1 (entriesOf hashFn f) 0 []).1.map Prod.fst).Nodup := by
        rw [pass1_names_eq, entriesOf_names]
        exact hnd
      have hla := lookupAssoc_get_of_nodup (restorePass1 (entriesOf hashFn f) 0 []).1 k hkP hndP
      have hname : ((restorePass1 (entriesOf hashFn f) 0 []).1.get ⟨k, hkP⟩).1 = p.1 := by
        rw [pass1_name_at (entriesOf hashFn f) 0 [] k hkE hkP,
          entriesOf_get hashFn f k hk hkE, hget]
      rw [← hname]
      exact hla
    · obtain ⟨b, hb⟩ := hpres ((entriesOf hashFn f).get ⟨k, hkE⟩) (List.get_mem _ k hkE)
      have hs := hslicec k hkE hkP b hb
      have hfb : hashFn b = ((entriesOf hashFn f).get ⟨k, hkE⟩).2.hash :=
        lookupAssoc_hashOk hashFn _ hhashok _ b hb
      have hh2 : ((entriesOf hashFn f).get ⟨k, hkE⟩).2.hash =
          hashFn (listSlice f.mmap (f.headerLen + 8 + p.2.dataOffsets.1)
            (f.headerLen + 8 + p.2.dataOffsets.2)) := by
        rw [entriesOf_get hashFn f k hk hkE, hget]
      have hbeq : b = listSlice f.mmap (f.headerLen + 8 + p.2.dataOffsets.1)
          (f.headerLen + 8 + p.2.dataOffsets.2) :=
        hinj (by rw [hfb, hh2])
      have hsl := hs.2.2
      rw [hbeq] at hsl
      exact hsl

/-- Witness for C1: a one-tensor file whose single payload byte `CC` sits at
absolute offset 9; ingest then restore reproduces it at offsets (0, 1). -/
theorem c1_payload_roundtrip_witness :
    Function.Injective (fun bs : List Nat => bs) ∧
    ValidSafetensors
      (⟨[("t", ⟨[1], "U8", (0, 1), []⟩)], List.replicate 9 7 ++ [204], 1⟩ : SafetensorFile) ∧
    process (fun bs : List Nat => bs)
        (⟨[("t", ⟨[1], "U8", (0, 1), []⟩)], List.replicate 9 7 ++ [204], 1⟩ : SafetensorFile)
        true [] =
      .ok (⟨[("t", ⟨[1], "U8", [204], 0, []⟩)], "1.0", 10⟩, [([204], [204])]) ∧
    (∃ out, restore
        (⟨[("t", ⟨[1], "U8", [204], 0, []⟩)], "1.0", 10⟩ : VektManifest (List Nat))
        [([204], [204])] none = .ok out ∧
      ∀ p ∈ [("t", (⟨[1], "U8", (0, 1), []⟩ : RawTensorMetaData))], ∃ meta2,
        lookupAssoc out.headerEntries p.1 = some meta2 ∧
        listSlice out.data meta2.dataOffsets.1 meta2.dataOffsets.2 =
          listSlice (List.replicate 9 7 ++ [204]) (1 + 8 + p.2.dataOffsets.1)
            (1 + 8 + p.2.dataOffsets.2)) := by
  refine ⟨fun a b h => h, by unfold ValidSafetensors; decide, rfl, ?_⟩
  exact c1_payload_roundtrip (fun bs : List Nat => bs) (fun a b h => h)
    (⟨[("t", ⟨[1], "U8", (0, 1), []⟩)], List.replicate 9 7 ++ [204], 1⟩ : SafetensorFile)
    (by unfold ValidSafetensors; decide)
    (⟨[("t", ⟨[1], "U8", [204], 0, []⟩)], "1.0", 10⟩ : VektManifest (List Nat))
    [([204], [204])] rfl

end Vekt
